import Mathlib

/-!
Verification development for the matching and normalization engine of the
cyprus-price-comparison repository (`product_matcher.py`).

The Python code is shallowly embedded: strings are `String`/`List Char`,
Python `None`-able fields are `Option`, Python floats are modelled by exact
rationals `ℚ`, and the SQLAlchemy session state mutated by `ProductMatcher`
is threaded explicitly through a `DB` record.  The character-level
similarity used by the code is `difflib.SequenceMatcher(None, a, b).ratio()`
from the CPython standard library; it is embedded below following the
CPython implementation (`find_longest_match` dynamic programme with the
autojunk heuristic and its extension loops, `get_matching_blocks`
recursion, `ratio = 2 * matches / (len a + len b)`).

Modelling boundaries: `str.lower` and the regex character classes are
treated over ASCII (the code's vocabularies, patterns and all inputs of
interest are ASCII); Python whitespace is the six ASCII whitespace
characters.
-/

/- Batteries marks the `Rat` field operations `@[irreducible]`; restore
definitional unfolding so that concrete scores evaluate by `decide`
(the kernel ignores reducibility either way). -/
attribute [local semireducible] Rat.add Rat.mul Rat.inv Rat.sub Rat.ofScientific

namespace CyPrice

/-! ### Python-style character and string primitives -/

/-- Python `\s` / `str.split()` whitespace (ASCII part). -/
def pyIsSpace (c : Char) : Bool :=
  c = ' ' || c = '\t' || c = '\n' || c = '\r' || c = '\x0b' || c = '\x0c'

/-- ASCII lower-casing, as `str.lower` acts on ASCII. -/
def lowC (c : Char) : Char :=
  if 'A' ≤ c ∧ c ≤ 'Z' then Char.ofNat (c.toNat + 32) else c

def lowL (s : List Char) : List Char := s.map lowC

/-- `str.lower` on a whole string (ASCII). -/
def pyLower (s : String) : String := String.mk (lowL s.toList)

def isDigC (c : Char) : Bool := '0' ≤ c && c ≤ '9'

def isLowAlpha (c : Char) : Bool := 'a' ≤ c && c ≤ 'z'

def isUpAlpha (c : Char) : Bool := 'A' ≤ c && c ≤ 'Z'

/-- Python regex `\w` (ASCII part): letters, digits, underscore. -/
def isWordC (c : Char) : Bool := isLowAlpha c || isUpAlpha c || isDigC c || c = '_'

/-- `str.strip()`. -/
def pyStrip (s : List Char) : List Char :=
  ((s.dropWhile pyIsSpace).reverse.dropWhile pyIsSpace).reverse

/-- Accumulator-based worker for `pySplit` (`acc` is the current token, reversed). -/
def pySplitAux : List Char → List Char → List (List Char)
  | [], acc => if acc.isEmpty then [] else [acc.reverse]
  | c :: cs, acc =>
    if pyIsSpace c then
      if acc.isEmpty then pySplitAux cs [] else acc.reverse :: pySplitAux cs []
    else pySplitAux cs (c :: acc)

/-- `str.split()` with no separator: split on whitespace runs, no empty parts. -/
def pySplit (s : List Char) : List (List Char) := pySplitAux s []

/-- `' '.join(parts)`. -/
def joinSpace (parts : List (List Char)) : List Char := List.intercalate [' '] parts

/-- All-occurrence, leftmost, non-overlapping substring replacement by the
empty string: `str.replace(pat, '')` for non-empty `pat` (identity for empty
`pat`, matching Python's behaviour of inserting nothing). -/
def eraseAllSub (pat : List Char) (s : List Char) : List Char :=
  if pat.isEmpty then s else go s.length s
where
  go : Nat → List Char → List Char
    | 0, rest => rest
    | _ + 1, [] => []
    | f + 1, c :: cs =>
      if pat.isPrefixOf (c :: cs) then go f ((c :: cs).drop pat.length)
      else c :: go f cs

/-- Substring containment test (Python `pat in s`). -/
def containsSub : List Char → List Char → Bool
  | pat, [] => pat.isEmpty
  | pat, c :: cs => pat.isPrefixOf (c :: cs) || containsSub pat cs

/-! ### ProductMatcher vocabularies (verbatim from the source) -/

def BRANDS : List String :=
  ["apple", "samsung", "xiaomi", "huawei", "oppo", "oneplus", "google", "nokia",
   "sony", "lg", "lenovo", "asus", "acer", "hp", "dell", "msi", "razer",
   "microsoft", "logitech", "corsair", "steelseries", "hyperx", "intel", "amd",
   "nvidia", "bosch", "philips", "panasonic", "canon", "nikon", "gopro"]

def STOP_WORDS : List String :=
  ["smartphone", "tablet", "laptop", "notebook", "desktop", "computer",
   "new", "original", "genuine", "official", "unlocked", "sealed",
   "dual", "sim", "wifi", "wi-fi", "bluetooth", "inch", "screen"]

def COLOR_WORDS : List String :=
  ["black", "white", "silver", "gold", "blue", "red", "green", "yellow",
   "pink", "purple", "gray", "grey", "orange", "titanium", "bronze",
   "midnight", "starlight", "sierra", "graphite", "rose", "space", "natural"]

/-- The local `colors` list inside `extract_color` (it lacks the
`"space"` and `"natural"` entries of `COLOR_WORDS`). -/
def EXTRACT_COLORS : List String :=
  ["black", "white", "silver", "gold", "blue", "red", "green", "yellow",
   "pink", "purple", "gray", "grey", "orange", "titanium", "bronze",
   "midnight", "starlight", "sierra", "graphite", "rose"]

/-! ### normalize_text

`re.sub(r'(\d+)\s*gb', r'\1gb', text)` and friends.  For these patterns the
Python backtracking engine is equivalent to the direct scan implemented
here: at a match start `\d+` must take the maximal digit run (stopping
earlier leaves a digit where `\s*`/the unit letter is required) and `\s*`
the maximal whitespace run, after which the unit must follow literally.
On failure the scan advances one character (restarting inside a digit run
fails the same way, so no match is skipped). -/

/-- One unit-standardization rewrite `(\d+)\s*u₁u₂ → \1u₁u₂`. -/
def subUnit (u1 u2 : Char) (s : List Char) : List Char :=
  go s.length s
where
  go : Nat → List Char → List Char
    | 0, rest => rest
    | _ + 1, [] => []
    | f + 1, c :: cs =>
      if isDigC c then
        let ds := (c :: cs).takeWhile isDigC
        let rest1 := (c :: cs).dropWhile isDigC
        let rest2 := rest1.dropWhile pyIsSpace
        match rest2 with
        | a :: b :: rest3 =>
          if a = u1 && b = u2 then ds ++ u1 :: u2 :: go f rest3
          else c :: go f cs
        | _ => c :: go f cs
      else c :: go f cs

/-- One inch rewrite `(\d+)q → \1inch` (for `q` = `"` or `'`). -/
def subInchQ (q : Char) (s : List Char) : List Char :=
  go s.length s
where
  go : Nat → List Char → List Char
    | 0, rest => rest
    | _ + 1, [] => []
    | f + 1, c :: cs =>
      if isDigC c then
        let ds := (c :: cs).takeWhile isDigC
        let rest1 := (c :: cs).dropWhile isDigC
        match rest1 with
        | a :: rest2 =>
          if a = q then ds ++ 'i' :: 'n' :: 'c' :: 'h' :: go f rest2
          else c :: go f cs
        | _ => c :: go f cs
      else c :: go f cs

/-- `re.sub(r'[^a-z0-9\s]', ' ', text)`. -/
def keepAlnumSpace (s : List Char) : List Char :=
  s.map (fun c => if isLowAlpha c || isDigC c || pyIsSpace c then c else ' ')

/-- `ProductMatcher.normalize_text`. -/
def normalize_text (text : String) : String :=
  if text.isEmpty then "" else
  let t0 := pyStrip (lowL text.toList)
  let t1 := subUnit 'g' 'b' t0
  let t2 := subUnit 't' 'b' t1
  let t3 := subUnit 'm' 'b' t2
  let t4 := subInchQ '\"' t3
  let t5 := subInchQ '\'' t4
  String.mk (joinSpace (pySplit (keepAlnumSpace t5)))

/-! ### normalize_text_base and feature extraction -/

def isUnitPair (a b : Char) : Bool := (a = 'g' || a = 't' || a = 'm') && b = 'b'

/-- True when the next character (if any) is not a word character, i.e. a
regex `\b` holds before it after a word character. -/
def noWordAhead : List Char → Bool
  | [] => true
  | d :: _ => !isWordC d

/-- `re.sub(r'\b\d+(?:gb|tb|mb)\b', '', s)`.  The boolean argument tracks
whether the previously scanned character was a word character (for `\b`). -/
def rmCapTokens (s : List Char) : List Char :=
  go s.length false s
where
  go : Nat → Bool → List Char → List Char
    | 0, _, rest => rest
    | _ + 1, _, [] => []
    | f + 1, prevW, c :: cs =>
      if !prevW && isDigC c then
        let rest1 := (c :: cs).dropWhile isDigC
        match rest1 with
        | a :: b :: rest2 =>
          if isUnitPair a b && noWordAhead rest2 then go f true rest2
          else c :: go f (isWordC c) cs
        | _ => c :: go f (isWordC c) cs
      else c :: go f (isWordC c) cs

/-- `ProductMatcher.normalize_text_base`. -/
def normalize_text_base (text : String) : String :=
  let normalized := normalize_text text
  let n2 := rmCapTokens normalized.toList
  let toks := (pySplit n2).filter (fun t => !COLOR_WORDS.contains (String.mk t))
  String.mk (joinSpace toks)

/-- `ProductMatcher.extract_base_tokens`. -/
def extract_base_tokens (text : String) : List String :=
  ((pySplit (normalize_text_base text).toList).map String.mk).filter
    (fun t => !STOP_WORDS.contains t)

/-- `ProductMatcher.extract_tokens`. -/
def extract_tokens (text : String) : List String :=
  ((pySplit (normalize_text text).toList).map String.mk).filter
    (fun t => !STOP_WORDS.contains t)

/-- `ProductMatcher.extract_brand`: whole-token vocabulary hit first (in
token order), then substring containment (in vocabulary order). -/
def extract_brand (name : String) : Option String :=
  let normalized := normalize_text name
  let tokens := (pySplit normalized.toList).map String.mk
  match tokens.find? (fun t => BRANDS.contains t) with
  | some t => some t
  | none => BRANDS.find? (fun b => containsSub b.toList normalized.toList)

/-- `ProductMatcher.extract_capacity`: first `\d+(?:gb|tb|mb)` match in the
normalized text (no word boundaries in this pattern). -/
def extract_capacity (name : String) : Option String :=
  let n := (normalize_text name).toList
  go n.length n
where
  go : Nat → List Char → Option String
    | 0, _ => none
    | _ + 1, [] => none
    | f + 1, c :: cs =>
      if isDigC c then
        let ds := (c :: cs).takeWhile isDigC
        let rest1 := (c :: cs).dropWhile isDigC
        match rest1 with
        | a :: b :: _ =>
          if isUnitPair a b then some (String.mk (ds ++ [a, b])) else go f cs
        | _ => go f cs
      else go f cs

/-- The adjacent-pair loop of `extract_color`: first token pair whose
`"t1 t2"` contains some colour as a substring. -/
def twoWordColor : List String → Option String
  | t1 :: t2 :: rest =>
    let tw := t1 ++ " " ++ t2
    if EXTRACT_COLORS.any (fun col => containsSub col.toList tw.toList) then some tw
    else twoWordColor (t2 :: rest)
  | _ => none

/-- `ProductMatcher.extract_color`. -/
def extract_color (name : String) : Option String :=
  let tokens := (pySplit (normalize_text name).toList).map String.mk
  match tokens.find? (fun t => EXTRACT_COLORS.contains t) with
  | some t => some t
  | none => twoWordColor tokens

/-- `re.sub(r'\b\d+\s*(?:gb|tb|mb)\b', '', name, flags=IGNORECASE)` on the
raw (non-normalized) name. -/
def rmCapSpaced (s : List Char) : List Char :=
  go s.length false s
where
  go : Nat → Bool → List Char → List Char
    | 0, _, rest => rest
    | _ + 1, _, [] => []
    | f + 1, prevW, c :: cs =>
      if !prevW && isDigC c then
        let rest1 := (c :: cs).dropWhile isDigC
        let rest2 := rest1.dropWhile pyIsSpace
        match rest2 with
        | a :: b :: rest3 =>
          if isUnitPair (lowC a) (lowC b) && noWordAhead rest3 then go f true rest3
          else c :: go f (isWordC c) cs
        | _ => c :: go f (isWordC c) cs
      else c :: go f (isWordC c) cs

/-- Case-insensitive prefix test against an (already lowercase) pattern. -/
def ciPrefix (pat s : List Char) : Bool := pat.isPrefixOf (lowL (s.take pat.length))

/-- `re.sub(r'\b' + re.escape(color) + r'\b', '', base, flags=IGNORECASE)`
for a non-empty colour phrase made of lowercase letters and spaces. -/
def rmColorWord (col : List Char) (s : List Char) : List Char :=
  go s.length false s
where
  go : Nat → Bool → List Char → List Char
    | 0, _, rest => rest
    | _ + 1, _, [] => []
    | f + 1, prevW, c :: cs =>
      if !prevW && !col.isEmpty && ciPrefix col (c :: cs)
          && noWordAhead ((c :: cs).drop col.length) then
        go f true ((c :: cs).drop col.length)
      else c :: go f (isWordC c) cs

/-- `ProductMatcher.build_base_name`. -/
def build_base_name (name : String) : String :=
  if name.isEmpty then "" else
  let base := rmCapSpaced name.toList
  let base2 :=
    match extract_color (String.mk base) with
    | some col => rmColorWord col.toList base
    | none => base
  let base3 := joinSpace (pySplit base2)
  if base3.isEmpty then name else String.mk base3

/-! ### extract_model

The six model regexes of `extract_model` are sequences of the atoms below.
For these patterns Python's backtracking search is equivalent to the
deterministic greedy scan implemented here: every `\s*`/`\d+`/`[a-z]+`
atom can safely take its maximal run (shrinking it puts a character of the
same class where the following atom requires a different class), and every
`(?:..|..)?` group is final or followed only by atoms that cannot fail, so
committing to its first matching alternative (or to the empty string) is
complete. -/

inductive MAtom where
  | lit : List Char → MAtom
  | wsStar : MAtom
  | digPlus : MAtom
  | digStar : MAtom
  | lowPlus : MAtom
  | lowOne : MAtom
  | altOpt : List (List Char) → MAtom

/-- Greedy matcher for an atom sequence at the head of `s`; returns the
number of characters consumed. -/
def matchAtoms : List MAtom → List Char → Option Nat
  | [], _ => some 0
  | MAtom.lit l :: as, s =>
    if l.isPrefixOf s then (matchAtoms as (s.drop l.length)).map (l.length + ·) else none
  | MAtom.wsStar :: as, s =>
    let k := (s.takeWhile pyIsSpace).length
    (matchAtoms as (s.drop k)).map (k + ·)
  | MAtom.digPlus :: as, s =>
    let k := (s.takeWhile isDigC).length
    if k = 0 then none else (matchAtoms as (s.drop k)).map (k + ·)
  | MAtom.digStar :: as, s =>
    let k := (s.takeWhile isDigC).length
    (matchAtoms as (s.drop k)).map (k + ·)
  | MAtom.lowPlus :: as, s =>
    let k := (s.takeWhile isLowAlpha).length
    if k = 0 then none else (matchAtoms as (s.drop k)).map (k + ·)
  | MAtom.lowOne :: as, s =>
    match s with
    | c :: cs => if isLowAlpha c then (matchAtoms as cs).map (1 + ·) else none
    | [] => none
  | MAtom.altOpt alts :: as, s =>
    match alts.find? (fun l => l.isPrefixOf s) with
    | some l => (matchAtoms as (s.drop l.length)).map (l.length + ·)
    | none => matchAtoms as s

/-- `re.search`: try the pattern at each start position, leftmost first;
return the matched substring. -/
def searchAtoms (as : List MAtom) : List Char → Option (List Char)
  | [] => (matchAtoms as []).map (fun n => ([] : List Char).take n)
  | c :: cs =>
    match matchAtoms as (c :: cs) with
    | some n => some ((c :: cs).take n)
    | none => searchAtoms as cs

def modelPatterns : List (List MAtom) :=
  [ [MAtom.lit "iphone".toList, MAtom.wsStar, MAtom.digPlus, MAtom.wsStar,
     MAtom.altOpt ["pro".toList, "plus".toList, "max".toList, "mini".toList]],
    [MAtom.lit "galaxy".toList, MAtom.wsStar, MAtom.lowOne, MAtom.digPlus, MAtom.wsStar,
     MAtom.altOpt ["ultra".toList, "plus".toList]],
    [MAtom.lit "pixel".toList, MAtom.wsStar, MAtom.digPlus, MAtom.wsStar,
     MAtom.altOpt ["pro".toList, "xl".toList]],
    [MAtom.lit "ipad".toList, MAtom.wsStar,
     MAtom.altOpt ["pro".toList, "air".toList, "mini".toList], MAtom.wsStar, MAtom.digStar],
    [MAtom.lit "macbook".toList, MAtom.wsStar,
     MAtom.altOpt ["pro".toList, "air".toList], MAtom.wsStar, MAtom.digStar],
    [MAtom.lowPlus, MAtom.wsStar, MAtom.digPlus, MAtom.wsStar,
     MAtom.altOpt ["pro".toList, "plus".toList, "max".toList, "ultra".toList]] ]

/-- First pattern (in order) whose search succeeds, with `.strip()`. -/
def firstModelHit : List (List MAtom) → List Char → Option String
  | [], _ => none
  | p :: ps, s =>
    match searchAtoms p s with
    | some m => some (String.mk (pyStrip m))
    | none => firstModelHit ps s

/-- `ProductMatcher.extract_model`. -/
def extract_model (name : String) (brand : Option String) : Option String :=
  let normalized := (normalize_text name).toList
  let n1 :=
    match brand with
    | some b => if b.isEmpty then normalized else pyStrip (eraseAllSub b.toList normalized)
    | none => normalized
  firstModelHit modelPatterns n1

/-! ### difflib.SequenceMatcher(None, a, b)

Embedded from CPython's `difflib`.  With `isjunk=None` the junk set
`bjunk` is empty, so of the four extension loops of `find_longest_match`
only the two unconditional-equality ones can fire; the autojunk heuristic
only removes "popular" elements of `b` (when `len(b) >= 200`) from the
`b2j` index used by the main dynamic-programming loop.  That main loop
computes the longest common substring all of whose `b`-side elements are
non-popular, returning the start pair that is lexicographically least
(first by `a`-index, then by `b`-index) among those attaining the maximal
length — the fold below over start pairs in lexicographic order with a
strict `>` update is exactly that. -/

namespace SeqM

/-- Autojunk popularity: an element of `b` appearing more than
`len(b) // 100 + 1` times when `len(b) >= 200`. -/
def popularB (b : List Char) (c : Char) : Bool :=
  decide (200 ≤ b.length) && decide (b.length / 100 + 1 < b.count c)

/-- Longest common prefix of two slices in which every `b`-side character
is non-popular (the match lengths available to the main DP loop). -/
def commonRun (b : List Char) : List Char → List Char → Nat
  | x :: xs, y :: ys =>
    if x = y && !popularB b y then 1 + commonRun b xs ys else 0
  | _, _ => 0

/-- The half-open slice `s[lo:hi]`. -/
def slice (s : List Char) (lo hi : Nat) : List Char := (s.take hi).drop lo

/-- Length of the maximal popularity-respecting match starting at `(i, j)`
inside the region `[alo, ahi) × [blo, bhi)`. -/
def runLen (a b : List Char) (ahi bhi i j : Nat) : Nat :=
  commonRun b (slice a i ahi) (slice b j bhi)

/-- All start pairs of the region in lexicographic scan order. -/
def lexPairs (alo ahi blo bhi : Nat) : List (Nat × Nat) :=
  ((List.range' alo (ahi - alo)).map
    (fun i => (List.range' blo (bhi - blo)).map (fun j => (i, j)))).flatten

/-- Tail-recursive scan over start pairs with a strict `>` update. -/
def mainGo (a b : List Char) (ahi bhi : Nat) :
    List (Nat × Nat) → Nat × Nat × Nat → Nat × Nat × Nat
  | [], best => best
  | ij :: rest, best =>
    if best.2.2 < runLen a b ahi bhi ij.1 ij.2 then
      mainGo a b ahi bhi rest (ij.1, ij.2, runLen a b ahi bhi ij.1 ij.2)
    else mainGo a b ahi bhi rest best

/-- Lexicographic (scan) order on start pairs. -/
def lexLt (x y : Nat × Nat) : Prop := x.1 < y.1 ∨ (x.1 = y.1 ∧ x.2 < y.2)

/-- The main loop of `find_longest_match`: first start pair attaining the
maximal `runLen`, via a strict `>` scan; `(alo, blo, 0)` when nothing
matches. -/
def mainBest (a b : List Char) (alo ahi blo bhi : Nat) : Nat × Nat × Nat :=
  mainGo a b ahi bhi (lexPairs alo ahi blo bhi) (alo, blo, 0)

/-- The backward extension loop (`while besti > alo and bestj > blo and
a[besti-1] == b[bestj-1]`): number of extension steps.  The `isSome`
conjunct only rules out out-of-list indices, which difflib never
queries; within the region both accesses are in range. -/
def extBack (a b : List Char) (alo blo : Nat) : Nat → Nat → Nat → Nat
  | 0, _, _ => 0
  | f + 1, bi, bj =>
    if alo < bi && blo < bj
        && ((a.get? (bi - 1)).isSome && a.get? (bi - 1) == b.get? (bj - 1)) then
      1 + extBack a b alo blo f (bi - 1) (bj - 1)
    else 0

/-- The forward extension loop (`while besti+bestsize < ahi and
bestj+bestsize < bhi and a[besti+bestsize] == b[bestj+bestsize]`). -/
def extFwd (a b : List Char) (ahi bhi : Nat) : Nat → Nat → Nat → Nat
  | 0, _, _ => 0
  | f + 1, i, j =>
    if i < ahi && j < bhi && ((a.get? i).isSome && a.get? i == b.get? j) then
      1 + extFwd a b ahi bhi f (i + 1) (j + 1)
    else 0

/-- Application of the two extension loops to the main-loop result. -/
def flmExt (a b : List Char) (alo ahi blo bhi : Nat) (m : Nat × Nat × Nat) :
    Nat × Nat × Nat :=
  (m.1 - extBack a b alo blo m.1 m.1 m.2.1,
   m.2.1 - extBack a b alo blo m.1 m.1 m.2.1,
   m.2.2 + extBack a b alo blo m.1 m.1 m.2.1
     + extFwd a b ahi bhi ahi (m.1 + m.2.2) (m.2.1 + m.2.2))

/-- `find_longest_match` with the two (empty-junk) extension loops. -/
def flm (a b : List Char) (alo ahi blo bhi : Nat) : Nat × Nat × Nat :=
  flmExt a b alo ahi blo bhi (mainBest a b alo ahi blo bhi)

/-- Total size of all matching blocks (the `get_matching_blocks`
recursion, fuel-bounded; the fuel `len a + len b + 1` used below always
suffices). -/
def tm (a b : List Char) : Nat → Nat → Nat → Nat → Nat → Nat
  | 0, _, _, _, _ => 0
  | f + 1, alo, ahi, blo, bhi =>
    if (flm a b alo ahi blo bhi).2.2 = 0 then 0
    else
      (flm a b alo ahi blo bhi).2.2
        + (if alo < (flm a b alo ahi blo bhi).1 && blo < (flm a b alo ahi blo bhi).2.1 then
            tm a b f alo (flm a b alo ahi blo bhi).1 blo (flm a b alo ahi blo bhi).2.1
          else 0)
        + (if (flm a b alo ahi blo bhi).1 + (flm a b alo ahi blo bhi).2.2 < ahi
              && (flm a b alo ahi blo bhi).2.1 + (flm a b alo ahi blo bhi).2.2 < bhi then
            tm a b f ((flm a b alo ahi blo bhi).1 + (flm a b alo ahi blo bhi).2.2) ahi
              ((flm a b alo ahi blo bhi).2.1 + (flm a b alo ahi blo bhi).2.2) bhi
          else 0)

def totalMatches (a b : List Char) : Nat :=
  tm a b (a.length + b.length + 1) 0 a.length 0 b.length

/-- `SequenceMatcher.ratio()` as an exact rational. -/
def ratioQ (a b : List Char) : ℚ :=
  if a.length + b.length = 0 then 1
  else (2 * totalMatches a b : ℚ) / (a.length + b.length)

end SeqM

/-- `ProductMatcher.calculate_similarity`. -/
def calculate_similarity (t1 t2 : String) : ℚ :=
  SeqM.ratioQ (normalize_text t1).toList (normalize_text t2).toList

/-- `ProductMatcher.calculate_similarity_base`. -/
def calculate_similarity_base (t1 t2 : String) : ℚ :=
  SeqM.ratioQ (normalize_text_base t1).toList (normalize_text_base t2).toList

/-- `ProductMatcher.calculate_token_overlap` (Jaccard over token sets:
`intersection / union if union > 0 else 0.0`). -/
def calculate_token_overlap (t1 t2 : List String) : ℚ :=
  if t1.isEmpty || t2.isEmpty then 0
  else if 0 < (t1 ++ t2).dedup.length then
    ((t1.dedup.filter (fun x => t2.contains x)).length : ℚ) / ((t1 ++ t2).dedup.length : ℚ)
  else 0

/-! ### Data model

`Product`, `MasterProduct`, `MasterProductVariant` from `models.py`,
restricted to the fields the matching engine reads or writes; nullable
columns are `Option`.  The SQLAlchemy session is the `DB` record: row
lists in insertion order plus autoincrement counters. -/

structure Product where
  name : String
  brand : Option String := none
  category : Option String := none
  masterProductId : Option Nat := none
  variantId : Option Nat := none
deriving DecidableEq, Repr

structure MasterProduct where
  id : Nat
  canonical_name : String
  brand : Option String
  model : Option String
  category : Option String
  normalized_name : String
  search_tokens : Option String
deriving DecidableEq, Repr

structure MasterProductVariant where
  id : Nat
  master_product_id : Nat
  capacity : String
deriving DecidableEq, Repr

structure DB where
  masters : List MasterProduct
  variants : List MasterProductVariant
  products : List Product
  nextMasterId : Nat
  nextVariantId : Nat
deriving DecidableEq, Repr

structure MatchStats where
  total_products : Nat
  matched_to_existing : Nat
  new_master_created : Nat
  already_matched : Nat
deriving DecidableEq, Repr

/-- Python truthiness of an optional string (`None` and `""` are falsy). -/
def truthy : Option String → Bool
  | none => false
  | some s => !s.isEmpty

/-- `product.brand or self.extract_brand(product.name)`. -/
def resolvedBrand (p : Product) : Option String :=
  if truthy p.brand then p.brand else extract_brand p.name

/-! ### is_match -/

/-- `ProductMatcher.is_match` (threshold defaults to 0.7 at call sites). -/
def is_match (product1 product2 : Product) (threshold : ℚ) : Bool :=
  let brand1 := resolvedBrand product1
  let brand2 := resolvedBrand product2
  if truthy brand1 && truthy brand2
      && (pyLower (brand1.getD "") != pyLower (brand2.getD "")) then false
  else
    let name_similarity := calculate_similarity_base product1.name product2.name
    let tokens1 := extract_base_tokens product1.name
    let tokens2 := extract_base_tokens product2.name
    let token_overlap := calculate_token_overlap tokens1 tokens2
    let cap1 := extract_capacity product1.name
    let cap2 := extract_capacity product2.name
    let capacity_match := if truthy cap1 && truthy cap2 then cap1 == cap2 else true
    let model1 := extract_model product1.name brand1
    let model2 := extract_model product2.name brand2
    let model_match := if truthy model1 && truthy model2 then model1 == model2 else true
    let score := name_similarity * (4/10) + token_overlap * (4/10)
      + (if capacity_match then (1 : ℚ) else 0) * (1/10)
      + (if model_match then (1 : ℚ) else 0) * (1/10)
    decide (threshold ≤ score)

/-! ### find_matching_master_product -/

/-- The brand prefilter of `find_matching_master_product` (note: it uses
the raw `product.brand` field, not `resolvedBrand`). -/
def brandSkip (product : Product) (master : MasterProduct) : Bool :=
  truthy master.brand && truthy product.brand
    && (pyLower (master.brand.getD "") != pyLower (product.brand.getD ""))

/-- The candidate score `0.6 * name_sim + 0.4 * token_overlap`. -/
def scoreMaster (product : Product) (master : MasterProduct) : ℚ :=
  let name_sim := calculate_similarity_base product.name master.canonical_name
  let tokens_product := extract_base_tokens product.name
  let tokens_master :=
    if truthy master.search_tokens then
      (pySplit (master.search_tokens.getD "").toList).map String.mk
    else []
  name_sim * (6/10) + calculate_token_overlap tokens_product tokens_master * (4/10)

/-- The loop body of `find_matching_master_product`: skip on brand
mismatch, otherwise keep the strictly better candidate. -/
def findFoldStep (product : Product) (best : Option MasterProduct × ℚ)
    (master : MasterProduct) : Option MasterProduct × ℚ :=
  if brandSkip product master then best
  else
    let score := scoreMaster product master
    if best.2 < score then (some master, score) else best

/-- `ProductMatcher.find_matching_master_product` over the session's
master list. -/
def find_matching_master_product (product : Product) (masters : List MasterProduct) :
    Option MasterProduct :=
  let best := masters.foldl (findFoldStep product) ((none : Option MasterProduct), (0 : ℚ))
  if best.1.isSome && decide ((3/4 : ℚ) ≤ best.2) then best.1 else none

/-- The claim's "skips masters whose known brand differs from the
listing's known brand", read with plain string inequality (the literal
reading of "differ"). -/
def brandSkipStrict (product : Product) (master : MasterProduct) : Bool :=
  truthy master.brand && truthy product.brand
    && (master.brand.getD "" != product.brand.getD "")

/-- `find_matching_master` as the claim describes it, parameterized by
the brand-skip predicate: score every non-skipped master, take the
first-encountered master attaining the strictly greatest score, accept
it iff that score is ≥ 0.75, otherwise none (in particular none on an
empty catalog). -/
def claimFind (skip : Product → MasterProduct → Bool) (product : Product)
    (masters : List MasterProduct) : Option MasterProduct :=
  let cands := masters.filter (fun m => !skip product m)
  match cands.find? (fun m => cands.all
      (fun m2 => decide (scoreMaster product m2 ≤ scoreMaster product m))) with
  | some m => if (3/4 : ℚ) ≤ scoreMaster product m then some m else none
  | none => none

/-- Concrete master/listing pair whose explicit brands differ only by
case (`"Apple"` vs `"apple"`). -/
def caseMaster : MasterProduct :=
  MasterProduct.mk 1 "Apple iPhone 16" (some "Apple") (some "iphone 16") none
    "apple iphone 16" (some "apple iphone 16")

def caseProduct : Product := Product.mk "Apple iPhone 16" (some "apple") none none none

/-! ### Catalog mutation -/

/-- `ProductMatcher.create_master_product`. -/
def create_master (db : DB) (product : Product) : MasterProduct × DB :=
  let brand := resolvedBrand product
  let master : MasterProduct :=
    { id := db.nextMasterId
      canonical_name := build_base_name product.name
      brand := brand
      model := extract_model product.name brand
      category := product.category
      normalized_name := normalize_text_base (build_base_name product.name)
      search_tokens :=
        some (String.intercalate " " (extract_base_tokens (build_base_name product.name))) }
  (master, { db with masters := db.masters ++ [master], nextMasterId := db.nextMasterId + 1 })

/-- The capacity label used for variants (`"unknown"` when none). -/
def capacityLabel (product : Product) : String :=
  match extract_capacity product.name with
  | some c => if c.isEmpty then "unknown" else c
  | none => "unknown"

/-- `ProductMatcher.get_or_create_variant`. -/
def get_or_create_variant (db : DB) (master : MasterProduct) (product : Product) :
    MasterProductVariant × DB :=
  let capacity := capacityLabel product
  match db.variants.find?
      (fun v => v.master_product_id == master.id && v.capacity == capacity) with
  | some v => (v, db)
  | none =>
    let v : MasterProductVariant :=
      { id := db.nextVariantId, master_product_id := master.id, capacity := capacity }
    (v, { db with variants := db.variants ++ [v], nextVariantId := db.nextVariantId + 1 })

/-- The filter of `match_products`: unmatched or variant-less listings. -/
def needsMatch (p : Product) : Bool := p.masterProductId.isNone || p.variantId.isNone

/-- The body of the `match_products` loop for one selected listing. -/
def stepProduct (db : DB) (stats : MatchStats) (p : Product) :
    Product × DB × MatchStats :=
  let m0 : Option MasterProduct × Product × MatchStats :=
    match p.masterProductId with
    | some mid =>
      match db.masters.find? (fun m => m.id == mid) with
      | some m => (some m, p, { stats with already_matched := stats.already_matched + 1 })
      | none => (none, { p with masterProductId := none }, stats)
    | none => (none, p, stats)
  match m0 with
  | (some master, p1, st1) =>
    let r := get_or_create_variant db master p1
    ({ p1 with variantId := some r.1.id }, r.2, st1)
  | (none, p1, st1) =>
    match find_matching_master_product p1 db.masters with
    | some master =>
      let p2 := { p1 with masterProductId := some master.id }
      let r := get_or_create_variant db master p2
      ({ p2 with variantId := some r.1.id }, r.2,
        { st1 with matched_to_existing := st1.matched_to_existing + 1 })
    | none =>
      let c := create_master db p1
      let p2 := { p1 with masterProductId := some c.1.id }
      let r := get_or_create_variant c.2 c.1 p2
      ({ p2 with variantId := some r.1.id }, r.2,
        { st1 with new_master_created := st1.new_master_created + 1 })

/-- The iteration of `match_products` over the product snapshot; returns
the rewritten product list together with the final session state and
statistics. -/
def matchLoop : List Product → DB → MatchStats → List Product × DB × MatchStats
  | [], db, st => ([], db, st)
  | p :: ps, db, st =>
    if needsMatch p then
      let s := stepProduct db st p
      let r := matchLoop ps s.2.1 s.2.2
      (s.1 :: r.1, r.2.1, r.2.2)
    else
      let r := matchLoop ps db st
      (p :: r.1, r.2.1, r.2.2)

/-- `ProductMatcher.match_products` (batch commits do not affect the final
state and are not modelled). -/
def match_products (db : DB) : DB × MatchStats :=
  let st0 : MatchStats := ⟨(db.products.filter needsMatch).length, 0, 0, 0⟩
  let r := matchLoop db.products db st0
  ({ r.2.1 with products := r.1 }, r.2.2)

/-! ### Invariant vocabulary -/

/-- At most one variant per (master, capacity) pair. -/
def VariantsUnique (vs : List MasterProductVariant) : Prop :=
  ∀ v1 ∈ vs, ∀ v2 ∈ vs,
    v1.master_product_id = v2.master_product_id → v1.capacity = v2.capacity → v1 = v2

/-- Abbreviation for the loop's `product.variant_id = variant.id` update. -/
def linkVar (p : Product) (v : MasterProductVariant) : Product :=
  { p with variantId := some v.id }

/-- A listing is fully linked: both assignments are set and the assigned
variant exists and belongs to the assigned master. -/
def wellLinked (vs : List MasterProductVariant) (q : Product) : Prop :=
  ∃ m v, q.masterProductId = some m ∧ q.variantId = some v ∧
    ∃ vr ∈ vs, vr.id = v ∧ vr.master_product_id = m

/-! ### Concrete sample catalog states (used by witnesses and
counterexamples) -/

def sampleDB : DB :=
  DB.mk [] [] [Product.mk "Apple iPhone 16 128GB Black" none none none none] 1 1

def sampleMaster : MasterProduct :=
  MasterProduct.mk 1 "Apple iPhone 16" (some "apple") (some "iphone 16") none
    "apple iphone 16" (some "apple iphone 16")

/-- A listing linked to master 1 but lacking a variant assignment. -/
def halfLinkedProduct : Product :=
  Product.mk "Apple iPhone 16 128GB Black" none none (some 1) none

def sampleDB2 : DB := DB.mk [sampleMaster] [] [halfLinkedProduct] 2 1

/-- A listing whose master link is dangling. -/
def dangleProduct : Product :=
  Product.mk "Apple iPhone 16 128GB Black" none none (some 99) none

def emptyDB : DB := DB.mk [] [] [] 1 1

/-! ## Theorems -/

set_option maxRecDepth 8000

/-! ### Helper lemmas on the catalog operations -/

theorem gocv_capacity (db : DB) (m : MasterProduct) (p : Product) :
    (get_or_create_variant db m p).1.capacity = capacityLabel p ∧
    (get_or_create_variant db m p).1.master_product_id = m.id := by
  unfold get_or_create_variant
  rcases h : db.variants.find?
      (fun v => v.master_product_id == m.id && v.capacity == capacityLabel p) with _ | v
  · simp [h]
  · have hv := List.find?_some h
    simp only [Bool.and_eq_true, beq_iff_eq] at hv
    simp [h, hv.1, hv.2]

theorem gocv_mem (db : DB) (m : MasterProduct) (p : Product) :
    (get_or_create_variant db m p).1 ∈ (get_or_create_variant db m p).2.variants := by
  unfold get_or_create_variant
  rcases h : db.variants.find?
      (fun v => v.master_product_id == m.id && v.capacity == capacityLabel p) with _ | v
  · simp [h]
  · simp only [h]
    exact List.mem_of_find?_eq_some h

theorem gocv_variants_mono (db : DB) (m : MasterProduct) (p : Product) :
    ∀ x ∈ db.variants, x ∈ (get_or_create_variant db m p).2.variants := by
  intro x hx
  unfold get_or_create_variant
  rcases h : db.variants.find?
      (fun v => v.master_product_id == m.id && v.capacity == capacityLabel p) with _ | v
  · simp [h, hx]
  · simp only [h]
    exact hx

theorem gocv_masters (db : DB) (m : MasterProduct) (p : Product) :
    (get_or_create_variant db m p).2.masters = db.masters := by
  unfold get_or_create_variant
  rcases h : db.variants.find?
      (fun v => v.master_product_id == m.id && v.capacity == capacityLabel p) with _ | v <;>
    simp [h]

theorem gocv_unique (db : DB) (m : MasterProduct) (p : Product)
    (h : VariantsUnique db.variants) :
    VariantsUnique (get_or_create_variant db m p).2.variants := by
  unfold get_or_create_variant
  rcases hf : db.variants.find?
      (fun v => v.master_product_id == m.id && v.capacity == capacityLabel p) with _ | v
  · have hnone := List.find?_eq_none.mp hf
    simp only [hf]
    intro v1 h1 v2 h2 hmm hcc
    simp only [List.mem_append, List.mem_singleton] at h1 h2
    rcases h1 with h1 | h1 <;> rcases h2 with h2 | h2
    · exact h v1 h1 v2 h2 hmm hcc
    · exfalso
      apply hnone v1 h1
      subst h2
      simp only at hmm hcc
      simp [hmm, hcc]
    · exfalso
      apply hnone v2 h2
      subst h1
      simp only at hmm hcc
      simp [← hmm, ← hcc]
    · rw [h1, h2]
  · simp only [hf]
    exact h

theorem create_master_variants (db : DB) (p : Product) :
    (create_master db p).2.variants = db.variants := rfl

theorem create_master_id (db : DB) (p : Product) :
    (create_master db p).1.id = db.nextMasterId := rfl

/-- Packaging lemma: a product whose links point at a member variant of the
right master is well linked. -/
theorem wellLinked_of (vs : List MasterProductVariant) (q : Product)
    (mid : Nat) (vr : MasterProductVariant)
    (h1 : q.masterProductId = some mid) (h2 : q.variantId = some vr.id)
    (h3 : vr ∈ vs) (h4 : vr.master_product_id = mid) : wellLinked vs q :=
  ⟨mid, vr.id, h1, h2, vr, h3, rfl, h4⟩

/-- The facts shared by every branch of the `stepProduct` case split. -/
theorem step_branch_facts (dbv : List MasterProductVariant) (db1 : DB)
    (p1 : Product) (master : MasterProduct)
    (hmid : p1.masterProductId = some master.id)
    (hvs : dbv = db1.variants) :
    (∀ x ∈ dbv, x ∈ (get_or_create_variant db1 master p1).2.variants) ∧
    ((linkVar p1 (get_or_create_variant db1 master p1).1).masterProductId.isSome = true) ∧
    ((linkVar p1 (get_or_create_variant db1 master p1).1).variantId.isSome = true) ∧
    wellLinked (get_or_create_variant db1 master p1).2.variants
      (linkVar p1 (get_or_create_variant db1 master p1).1) ∧
    (VariantsUnique dbv → VariantsUnique (get_or_create_variant db1 master p1).2.variants) := by
  subst hvs
  refine ⟨gocv_variants_mono db1 master p1, by simp [linkVar, hmid], by simp [linkVar], ?_, ?_⟩
  · exact wellLinked_of _ _ master.id (get_or_create_variant db1 master p1).1
      (by simp [linkVar, hmid]) (by simp [linkVar]) (gocv_mem db1 master p1)
      (gocv_capacity db1 master p1).2
  · intro hu
    exact gocv_unique db1 master p1 hu

/-- All per-step facts about `stepProduct` needed by the batch claims:
variant monotonicity, both links set, well-linkedness of the produced
listing, uniqueness preservation. -/
theorem stepProduct_facts (db : DB) (st : MatchStats) (p : Product) :
    (∀ x ∈ db.variants, x ∈ (stepProduct db st p).2.1.variants) ∧
    ((stepProduct db st p).1.masterProductId.isSome = true) ∧
    ((stepProduct db st p).1.variantId.isSome = true) ∧
    wellLinked (stepProduct db st p).2.1.variants (stepProduct db st p).1 ∧
    (VariantsUnique db.variants → VariantsUnique (stepProduct db st p).2.1.variants) := by
  rcases hp : p.masterProductId with _ | mid
  · simp only [stepProduct, hp]
    rcases hf : find_matching_master_product p db.masters with _ | master
    · simp only [hf]
      exact step_branch_facts db.variants (create_master db p).2
        { p with masterProductId := some (create_master db p).1.id }
        (create_master db p).1 rfl rfl
    · simp only [hf]
      exact step_branch_facts db.variants db
        { p with masterProductId := some master.id } master rfl rfl
  · simp only [stepProduct, hp]
    rcases hm : db.masters.find? (fun m => m.id == mid) with _ | master
    · simp only [hm]
      rcases hf : find_matching_master_product { p with masterProductId := none }
          db.masters with _ | master
      · simp only [hf]
        exact step_branch_facts db.variants (create_master db { p with masterProductId := none }).2 { p with masterProductId := some (create_master db { p with masterProductId := none }).1.id } (create_master db { p with masterProductId := none }).1 rfl rfl
      · simp only [hf]
        exact step_branch_facts db.variants db
          { p with masterProductId := some master.id } master rfl rfl
    · simp only [hm]
      have hmaster : master.id = mid := by
        have := List.find?_some hm
        simpa using this
      exact step_branch_facts db.variants db p master (by rw [hp, hmaster]) rfl

theorem needsMatch_false (p : Product) (h : needsMatch p = false) :
    p.masterProductId.isSome = true ∧ p.variantId.isSome = true := by
  rcases hm : p.masterProductId with _ | m <;> rcases hv : p.variantId with _ | v <;>
    simp_all [needsMatch]

theorem wellLinked_mono (vs vs2 : List MasterProductVariant) (q : Product)
    (hsub : ∀ x ∈ vs, x ∈ vs2) (h : wellLinked vs q) : wellLinked vs2 q := by
  obtain ⟨m, v, h1, h2, vr, h3, h4, h5⟩ := h
  exact ⟨m, v, h1, h2, vr, hsub vr h3, h4, h5⟩

/-- The induction workhorse for `match_products`: variant monotonicity,
uniqueness preservation, link shape of every output listing, and the
pointwise relation between input and output listings (unprocessed ones
are untouched, processed ones end up well linked). -/
theorem matchLoop_main (l : List Product) (db : DB) (st : MatchStats) :
    (∀ x ∈ db.variants, x ∈ (matchLoop l db st).2.1.variants) ∧
    (VariantsUnique db.variants → VariantsUnique (matchLoop l db st).2.1.variants) ∧
    (∀ q ∈ (matchLoop l db st).1,
      q.masterProductId.isSome = true ∧ q.variantId.isSome = true) ∧
    List.Forall₂ (fun p q => (needsMatch p = false → q = p) ∧
        (needsMatch p = true → wellLinked (matchLoop l db st).2.1.variants q))
      l (matchLoop l db st).1 := by
  induction l generalizing db st with
  | nil =>
    refine ⟨fun x hx => hx, fun h => h, by simp [matchLoop], ?_⟩
    simp [matchLoop]
  | cons p ps ih =>
    by_cases hn : needsMatch p
    · obtain ⟨hmono, hs1, hs2, hwl, huni⟩ := stepProduct_facts db st p
      obtain ⟨ihmono, ihuniq, ihsome, ihrel⟩ :=
        ih (stepProduct db st p).2.1 (stepProduct db st p).2.2
      simp only [matchLoop, hn, if_true]
      refine ⟨fun x hx => ihmono x (hmono x hx), fun hu => ihuniq (huni hu), ?_, ?_⟩
      · intro q hq
        cases hq with
        | head => exact ⟨hs1, hs2⟩
        | tail _ hq => exact ihsome q hq
      · refine List.Forall₂.cons ⟨fun hfalse => absurd hn (by simp [hfalse]), ?_⟩ ihrel
        intro _
        exact wellLinked_mono _ _ _ ihmono hwl
    · obtain ⟨ihmono, ihuniq, ihsome, ihrel⟩ := ih db st
      rw [Bool.not_eq_true] at hn
      simp only [matchLoop, hn, Bool.false_eq_true, if_false]
      refine ⟨ihmono, ihuniq, ?_, ?_⟩
      · intro q hq
        cases hq with
        | head => exact needsMatch_false p hn
        | tail _ hq => exact ihsome q hq
      · exact List.Forall₂.cons ⟨fun _ => rfl, fun htrue => absurd htrue (by simp [hn])⟩ ihrel

theorem match_products_links_set (db : DB) :
    ∀ q ∈ (match_products db).1.products,
      q.masterProductId.isSome = true ∧ q.variantId.isSome = true := by
  intro q hq
  exact (matchLoop_main db.products db ⟨(db.products.filter needsMatch).length, 0, 0, 0⟩).2.2.1 q hq

theorem matchLoop_skip_all (l : List Product) (db : DB) (st : MatchStats)
    (h : ∀ p ∈ l, needsMatch p = false) : matchLoop l db st = (l, db, st) := by
  induction l with
  | nil => rfl
  | cons p ps ih =>
    have hp := h p (by simp)
    simp only [matchLoop, hp, Bool.false_eq_true, if_false]
    rw [ih (fun x hx => h x (by simp [hx]))]

theorem needsMatch_eq_false (p : Product)
    (h1 : p.masterProductId.isSome = true) (h2 : p.variantId.isSome = true) :
    needsMatch p = false := by
  rcases hm : p.masterProductId with _ | m <;> rcases hv : p.variantId with _ | v <;>
    simp_all [needsMatch]

/-- A `match_products` run over a catalog whose listings are all fully
assigned selects nothing, mutates nothing and reports zero statistics. -/
theorem match_products_noop (dbx : DB)
    (h : ∀ p ∈ dbx.products, needsMatch p = false) :
    match_products dbx = (dbx, ⟨0, 0, 0, 0⟩) := by
  have hfilter : dbx.products.filter needsMatch = [] := by
    rw [List.filter_eq_nil_iff]
    intro p hp
    simp [h p hp]
  unfold match_products
  rw [hfilter]
  simp only [List.length_nil, matchLoop_skip_all _ _ _ h]

/-- A second `match_products` run right after a completed one selects no
listing, mutates nothing, and reports all-zero statistics. -/
theorem match_products_idem (db : DB) :
    match_products (match_products db).1 = ((match_products db).1, ⟨0, 0, 0, 0⟩) := by
  apply match_products_noop
  intro p hp
  obtain ⟨h1, h2⟩ := match_products_links_set db p hp
  exact needsMatch_eq_false p h1 h2

/-- C1: the spec (and the repository's own `test_model_blocking.py`) claim
that `is_match` on the Samsung Galaxy A36/A56 pair with the default
threshold 0.7 returns false.  The code disagrees: the weighted score is
`0.4 * 28/29 + 0.4 * 2/3 + 0.1 * 1 + 0.1 * 0 = 0.75287... ≥ 0.7`, so
`is_match` returns **true** — the differing extracted models
(`galaxy a36` vs `galaxy a56`) only cost the 0.1 model weight and do not
keep the score below the threshold.  This theorem evaluates the code at
the failing input. -/
theorem C1_is_match_a36_a56_returns_true :
    is_match (Product.mk "Samsung Galaxy A36 5G 256GB Awesome Black" none none none none)
      (Product.mk "Samsung Galaxy A56 5G 256GB Awesome Graphite" none none none none)
      (7/10) = true := by
  decide

/-- C3: the spec (and the repository's own `test_color_fix.py`) claim
`normalize_base("Apple iPhone 17 256GB Mist Blue") = "apple iphone 17"`.
The code returns `"apple iphone 17 mist"`: the colour filter removes only
whole tokens present in `COLOR_WORDS`, and `"mist"` is not in that list,
so only `"blue"` (and the capacity token) is removed.  This theorem
evaluates the code at the failing input. -/
theorem C3_normalize_base_keeps_mist :
    normalize_text_base "Apple iPhone 17 256GB Mist Blue" = "apple iphone 17 mist" := by
  decide


/-- C5: running `match_batch` a second time immediately after a completed
run, with no new listings, performs no catalog mutation: the catalog
state (masters, variants, listings with their assignments, id counters)
is exactly the state after the first run, and the second run's statistics
are all zero. -/
theorem C5_match_batch_idempotent (db : DB) :
    (match_products (match_products db).1).1 = (match_products db).1 ∧
    (match_products (match_products db).1).2 = ⟨0, 0, 0, 0⟩ := by
  have h := match_products_idem db
  exact ⟨by rw [h], by rw [h]⟩

/-- C6 counterexample: one listing, empty catalog.  The first run creates
a master (id 1) and links the listing to it; the re-run reports
`already_matched = 0` and `total_products = 0` — the listing is *not*
counted in the `alreadyMatched` statistic as the claim states, because
both its links are set and the unmatched filter excludes it entirely. -/
theorem C6_counterexample :
    (match_products sampleDB).2.new_master_created = 1 ∧
    ((match_products sampleDB).1.products.map Product.masterProductId) = [some 1] ∧
    (match_products (match_products sampleDB).1).2.already_matched = 0 ∧
    (match_products (match_products sampleDB).1).2.total_products = 0 := by
  decide

/-- C6 (amended): a listing matched into a newly created master keeps the
same master id on a re-run because the re-run's unmatched filter excludes
it (both links set): the re-run rewrites no listing and reports
`already_matched = 0`, and `find_matching_master` is not re-invoked for
anything.  The `alreadyMatched` path applies only to a listing whose
master link is set and resolvable but whose variant link is missing; for
such a listing the step keeps the master id and increments the
`already_matched` counter. -/
theorem C6_roundtrip_amended (db : DB) :
    ((match_products (match_products db).1).2.already_matched = 0) ∧
    ((match_products (match_products db).1).1.products = (match_products db).1.products) ∧
    (∀ (dbx : DB) (st : MatchStats) (p : Product) (mid : Nat) (m : MasterProduct),
      p.masterProductId = some mid →
      dbx.masters.find? (fun mm => mm.id == mid) = some m →
      (stepProduct dbx st p).1.masterProductId = some mid ∧
      (stepProduct dbx st p).2.2.already_matched = st.already_matched + 1) := by
  have h := match_products_idem db
  refine ⟨by rw [h], by rw [h], ?_⟩
  intro dbx st p mid m h1 h2
  simp [stepProduct, h1, h2, linkVar]

/-- Witness for C6 (amended): the half-linked sample listing resolves its
existing master through the `alreadyMatched` path. -/
theorem C6_roundtrip_amended_witness :
    (stepProduct sampleDB2 ⟨0, 0, 0, 0⟩ halfLinkedProduct).1.masterProductId = some 1 ∧
    (stepProduct sampleDB2 ⟨0, 0, 0, 0⟩ halfLinkedProduct).2.2.already_matched = 1 :=
  (C6_roundtrip_amended sampleDB).2.2 sampleDB2 ⟨0, 0, 0, 0⟩ halfLinkedProduct 1
    sampleMaster rfl rfl

/-- C8: a listing whose stored master id no longer resolves is processed
exactly as if it had never been assigned: the dangling reference is
cleared and the listing goes through the normal find-or-create path; no
error state exists. -/
theorem C8_dangling_master_rematched (db : DB) (st : MatchStats) (p : Product) (mid : Nat)
    (h1 : p.masterProductId = some mid)
    (h2 : db.masters.find? (fun m => m.id == mid) = none) :
    stepProduct db st p = stepProduct db st { p with masterProductId := none } := by
  simp [stepProduct, h1, h2]

/-- Witness for C8: the sample dangling listing (master id 99 over an
empty master list). -/
theorem C8_dangling_witness :
    stepProduct emptyDB ⟨0, 0, 0, 0⟩ dangleProduct =
      stepProduct emptyDB ⟨0, 0, 0, 0⟩ { dangleProduct with masterProductId := none } :=
  C8_dangling_master_rematched emptyDB ⟨0, 0, 0, 0⟩ dangleProduct 99 rfl rfl


theorem extract_capacity_go_ne (f : Nat) :
    ∀ (s : List Char) (c : String), extract_capacity.go f s = some c → c ≠ "" := by
  induction f with
  | zero => intro s c h; simp [extract_capacity.go] at h
  | succ f ih =>
    intro s c h
    cases s with
    | nil => simp [extract_capacity.go] at h
    | cons x xs =>
      simp only [extract_capacity.go] at h
      split at h
      · split at h
        · split at h
          · rw [Option.some.injEq] at h
            intro heq
            rw [heq] at h
            rw [String.ext_iff] at h
            simp at h
          · exact ih xs c h
        · exact ih xs c h
      · exact ih xs c h

/-- The capacity label is the extracted capacity, with the `"unknown"`
sentinel exactly when no capacity is extractable. -/
theorem capacityLabel_spec (p : Product) :
    capacityLabel p = (extract_capacity p.name).getD "unknown" := by
  unfold capacityLabel
  rcases h : extract_capacity p.name with _ | c
  · rfl
  · have hne : c ≠ "" := extract_capacity_go_ne _ _ c h
    simp [String.isEmpty_iff, hne]

/-- C7: variant uniqueness per (master, capacity) is preserved by
`match_batch`; `get_or_create_variant` returns a variant of the given
master labelled by the listing's extracted capacity (`"unknown"` when
none is extractable — never unassigned); and two listings with identical
extracted capacity under the same master get the same single variant. -/
theorem C7_variant_uniqueness :
    (∀ db : DB, VariantsUnique db.variants →
      VariantsUnique ((match_products db).1).variants) ∧
    (∀ (db : DB) (m : MasterProduct) (p : Product),
      (get_or_create_variant db m p).1.capacity = (extract_capacity p.name).getD "unknown" ∧
      (get_or_create_variant db m p).1.master_product_id = m.id) ∧
    (∀ (db : DB) (m : MasterProduct) (p1 p2 : Product),
      capacityLabel p1 = capacityLabel p2 →
      (get_or_create_variant (get_or_create_variant db m p1).2 m p2).1 =
        (get_or_create_variant db m p1).1) := by
  refine ⟨?_, ?_, ?_⟩
  · intro db hu
    exact (matchLoop_main db.products db
      ⟨(db.products.filter needsMatch).length, 0, 0, 0⟩).2.1 hu
  · intro db m p
    have h := gocv_capacity db m p
    rw [capacityLabel_spec] at h
    exact h
  · intro db m p1 p2 hcap
    simp only [get_or_create_variant, ← hcap]
    rcases hf : db.variants.find?
        (fun v => v.master_product_id == m.id && v.capacity == capacityLabel p1) with _ | v
    · simp only [hf, List.find?_append, Option.or]
      simp [hf]
    · simp [hf]

/-- Witness for C7: the sample one-listing catalog (empty, hence unique,
variant table) stays unique after a run; the sample `get_or_create_variant`
call returns the `128gb` variant of master 1; and two equal-capacity
listings share one variant. -/
theorem C7_variant_uniqueness_witness :
    VariantsUnique ((match_products sampleDB).1).variants ∧
    ((get_or_create_variant sampleDB2 sampleMaster halfLinkedProduct).1.capacity =
      (extract_capacity halfLinkedProduct.name).getD "unknown") ∧
    (get_or_create_variant
        (get_or_create_variant sampleDB2 sampleMaster halfLinkedProduct).2
        sampleMaster halfLinkedProduct).1 =
      (get_or_create_variant sampleDB2 sampleMaster halfLinkedProduct).1 :=
  ⟨C7_variant_uniqueness.1 sampleDB (by intro v hv; simp [sampleDB] at hv),
   (C7_variant_uniqueness.2.1 sampleDB2 sampleMaster halfLinkedProduct).1,
   C7_variant_uniqueness.2.2 sampleDB2 sampleMaster halfLinkedProduct halfLinkedProduct rfl⟩


/-- C10 (implicit): after a completed `match_batch` run, every processed
listing (one the unmatched filter selected) has both a master and a
variant assignment, and its assigned variant exists in the catalog and
belongs to its assigned master.  (Unprocessed listings already carried
both assignments, which is why the filter skipped them.) -/
theorem C10_processed_listings_linked (db : DB) :
    ((match_products db).1.products.length = db.products.length) ∧
    ∀ (i : Nat) (h1 : i < db.products.length)
      (h2 : i < (match_products db).1.products.length),
      needsMatch (db.products.get ⟨i, h1⟩) = true →
      wellLinked ((match_products db).1).variants
        ((match_products db).1.products.get ⟨i, h2⟩) := by
  have h := (matchLoop_main db.products db
    ⟨(db.products.filter needsMatch).length, 0, 0, 0⟩).2.2.2
  refine ⟨(List.Forall₂.length_eq h).symm, ?_⟩
  intro i h1 h2 hneeds
  exact ((List.forall₂_iff_get.mp h).2 i h1 h2).2 hneeds

/-- Witness for C10: the single processed listing of the sample catalog
ends up fully linked to an existing variant of its master. -/
theorem C10_processed_listings_linked_witness :
    wellLinked ((match_products sampleDB).1).variants
      ((match_products sampleDB).1.products.get ⟨0, by decide⟩) :=
  (C10_processed_listings_linked sampleDB).2 0 (by decide) (by decide) rfl


/-- C2 counterexample: two listings with explicit brands `"Apple"` and
`"apple"` — known, non-empty, and different as strings — and identical
names.  The veto compares brands only after `.lower()`, so it does not
fire and `is_match` returns true: the claim as stated (any differing
brands) is false. -/
theorem C2_brand_veto_counterexample :
    resolvedBrand (Product.mk "Apple iPhone 16" (some "Apple") none none none) = some "Apple" ∧
    resolvedBrand (Product.mk "Apple iPhone 16" (some "apple") none none none) = some "apple" ∧
    (("Apple" : String) ≠ "apple") ∧ (("Apple" : String) ≠ "") ∧ (("apple" : String) ≠ "") ∧
    is_match (Product.mk "Apple iPhone 16" (some "Apple") none none none)
      (Product.mk "Apple iPhone 16" (some "apple") none none none) (7/10) = true := by
  decide

/-- C2 (amended): for every pair of listings whose resolved brands
(explicit field if truthy, else `extract_brand`) are both known,
non-empty and differ **case-insensitively** (after `.lower()`), `is_match`
returns false for any names and any threshold: the veto fires before any
similarity scoring. -/
theorem C2_brand_veto (p1 p2 : Product) (t : ℚ) (b1 b2 : String)
    (h1 : resolvedBrand p1 = some b1) (h2 : resolvedBrand p2 = some b2)
    (hb1 : b1 ≠ "") (hb2 : b2 ≠ "") (hlow : pyLower b1 ≠ pyLower b2) :
    is_match p1 p2 t = false := by
  have t1 : truthy (resolvedBrand p1) = true := by
    rw [h1]
    simp only [truthy, Bool.not_eq_true']
    exact Bool.eq_false_iff.mpr (fun hemp => hb1 ((String.isEmpty_iff b1).mp hemp))
  have t2 : truthy (resolvedBrand p2) = true := by
    rw [h2]
    simp only [truthy, Bool.not_eq_true']
    exact Bool.eq_false_iff.mpr (fun hemp => hb2 ((String.isEmpty_iff b2).mp hemp))
  have hbne : (pyLower ((resolvedBrand p1).getD "") !=
      pyLower ((resolvedBrand p2).getD "")) = true := by
    simp only [h1, h2, Option.getD_some]
    exact bne_iff_ne.mpr hlow
  simp only [is_match, t1, t2, hbne, Bool.and_self, if_true]

/-- Witness for C2 (amended): explicit brands `"Apple"` vs `"samsung"`
veto the match even for identical names. -/
theorem C2_brand_veto_witness :
    is_match (Product.mk "Apple iPhone 16" (some "Apple") none none none)
      (Product.mk "Apple iPhone 16" (some "samsung") none none none) (7/10) = false :=
  C2_brand_veto _ _ (7/10) "Apple" "samsung" rfl rfl (by decide) (by decide) (by decide)


theorem ratioQ_nonneg (a b : List Char) : 0 ≤ SeqM.ratioQ a b := by
  unfold SeqM.ratioQ
  split
  · norm_num
  · positivity

theorem overlap_nonneg (t1 t2 : List String) : 0 ≤ calculate_token_overlap t1 t2 := by
  unfold calculate_token_overlap
  split
  · norm_num
  · split
    · positivity
    · norm_num

theorem scoreMaster_nonneg (p : Product) (m : MasterProduct) : 0 ≤ scoreMaster p m := by
  have h1 : 0 ≤ calculate_similarity_base p.name m.canonical_name := ratioQ_nonneg _ _
  have h2 : 0 ≤ calculate_token_overlap (extract_base_tokens p.name)
      (if truthy m.search_tokens then
        (pySplit (m.search_tokens.getD "").toList).map String.mk
      else []) := overlap_nonneg _ _
  exact add_nonneg (mul_nonneg h1 (by norm_num)) (mul_nonneg h2 (by norm_num))

/-- Invariant of the `find_matching_master_product` fold: a `none` best
has score 0; the best score is nonnegative and dominates every
non-skipped candidate; and a `some` best is the first-encountered
candidate attaining the final (strictly greatest) score. -/
theorem findFold_invariant (product : Product) (l : List MasterProduct) :
    ((l.foldl (findFoldStep product) (none, 0)).1 = none →
        (l.foldl (findFoldStep product) (none, 0)).2 = 0) ∧
    (0 ≤ (l.foldl (findFoldStep product) (none, 0)).2) ∧
    (∀ m2 ∈ l.filter (fun m => !brandSkip product m),
        scoreMaster product m2 ≤ (l.foldl (findFoldStep product) (none, 0)).2) ∧
    (∀ m, (l.foldl (findFoldStep product) (none, 0)).1 = some m →
      ∃ l1 l2, l.filter (fun m => !brandSkip product m) = l1 ++ m :: l2 ∧
        scoreMaster product m = (l.foldl (findFoldStep product) (none, 0)).2 ∧
        ∀ m2 ∈ l1, scoreMaster product m2 < scoreMaster product m) := by
  induction l using List.reverseRecOn with
  | nil => simp
  | append_singleton l x ih =>
    obtain ⟨ihE, ihNN, ihB, ihD⟩ := ih
    simp only [List.foldl_append, List.foldl_cons, List.foldl_nil, List.filter_append] at *
    by_cases hskip : brandSkip product x
    · simp only [findFoldStep, hskip, if_true, if_false, List.filter_cons, List.filter_nil,
        Bool.not_true, Bool.false_eq_true, List.append_nil]
      exact ⟨ihE, ihNN, ihB, ihD⟩
    · rw [Bool.not_eq_true] at hskip
      simp only [findFoldStep, hskip, Bool.false_eq_true, if_false, if_true, List.filter_cons,
        List.filter_nil, Bool.not_false]
      by_cases hlt : (l.foldl (findFoldStep product) (none, 0)).2 < scoreMaster product x
      · simp only [hlt, if_true]
        refine ⟨(by intro h; cases h), le_of_lt (lt_of_le_of_lt ihNN hlt), ?_, ?_⟩
        · intro m2 hm2
          rcases List.mem_append.mp hm2 with hm2 | hm2
          · exact le_of_lt (lt_of_le_of_lt (ihB m2 hm2) hlt)
          · rw [List.mem_singleton.mp hm2]
        · intro m hm
          rw [Option.some.injEq] at hm
          subst hm
          refine ⟨l.filter (fun m => !brandSkip product m), [], rfl, rfl, ?_⟩
          intro m2 hm2
          exact lt_of_le_of_lt (ihB m2 hm2) hlt
      · simp only [hlt, if_false]
        refine ⟨ihE, ihNN, ?_, ?_⟩
        · intro m2 hm2
          rcases List.mem_append.mp hm2 with hm2 | hm2
          · exact ihB m2 hm2
          · rw [List.mem_singleton.mp hm2]
            exact not_lt.mp hlt
        · intro m hm
          obtain ⟨l1, l2, hsplit, hscore, hl1⟩ := ihD m hm
          refine ⟨l1, l2 ++ [x], ?_, hscore, hl1⟩
          rw [hsplit]
          simp


/-- C4 counterexample: with the claim's literal reading of "skips masters
whose known brand differs from the listing's known brand" (plain string
inequality), the described algorithm returns none on the case-differing
brand pair `"Apple"`/`"apple"`, while the code — which lowercases both
sides before comparing — returns the master. -/
theorem C4_find_master_counterexample :
    truthy caseMaster.brand = true ∧ truthy caseProduct.brand = true ∧
    caseMaster.brand ≠ caseProduct.brand ∧
    claimFind brandSkipStrict caseProduct [caseMaster] = none ∧
    find_matching_master_product caseProduct [caseMaster] = some caseMaster := by
  decide

/-- C4 (amended): `find_matching_master` skips masters whose known brand
differs **case-insensitively** from the listing's known brand field,
scores each remaining master as `0.6 * base string similarity(listing
name, master canonical name) + 0.4 * token overlap(listing base tokens,
master search tokens)`, and returns the first-encountered master
attaining the strictly greatest score iff that score is ≥ 0.75, else
none (in particular none on an empty catalog).  Stated as equality with
the claim's algorithm `claimFind` instantiated with the code's
(lowercasing) brand prefilter. -/
theorem C4_find_master_amended (product : Product) (masters : List MasterProduct) :
    find_matching_master_product product masters = claimFind brandSkip product masters := by
  obtain ⟨hE, hNN, hB, hD⟩ := findFold_invariant product masters
  unfold find_matching_master_product claimFind
  rcases h1 : (masters.foldl (findFoldStep product) (none, 0)).1 with _ | m
  · simp only [h1, Option.isSome_none, Bool.false_and, Bool.false_eq_true, if_false]
    rcases hfind : (masters.filter (fun m => !brandSkip product m)).find?
        (fun m => (masters.filter (fun m => !brandSkip product m)).all
          (fun m2 => decide (scoreMaster product m2 ≤ scoreMaster product m))) with _ | m0
    · rfl
    · have hm0 : m0 ∈ masters.filter (fun m => !brandSkip product m) :=
        List.mem_of_find?_eq_some hfind
      have hle : scoreMaster product m0 ≤ (masters.foldl (findFoldStep product) (none, 0)).2 :=
        hB m0 hm0
      rw [hE h1] at hle
      have hnotle : ¬ (3/4 : ℚ) ≤ scoreMaster product m0 := by
        intro hcon
        have hcon2 : (3/4 : ℚ) ≤ 0 := le_trans hcon hle
        norm_num at hcon2
      simp [hnotle]
  · obtain ⟨l1, l2, hsplit, hscore, hl1⟩ := hD m h1
    have hpredm : ((masters.filter (fun m => !brandSkip product m)).all
        (fun m2 => decide (scoreMaster product m2 ≤ scoreMaster product m))) = true := by
      rw [List.all_eq_true]
      intro m2 hm2
      rw [decide_eq_true_eq, hscore]
      exact hB m2 hm2
    have hfind : (masters.filter (fun m => !brandSkip product m)).find?
        (fun m => (masters.filter (fun m => !brandSkip product m)).all
          (fun m2 => decide (scoreMaster product m2 ≤ scoreMaster product m))) = some m := by
      rw [hsplit] at hpredm ⊢
      rw [List.find?_append]
      have h1none : l1.find? (fun mm => (l1 ++ m :: l2).all
          (fun m2 => decide (scoreMaster product m2 ≤ scoreMaster product mm))) = none := by
        rw [List.find?_eq_none]
        intro m1 hm1
        intro hall
        rw [List.all_eq_true] at hall
        have hmle := hall m (by simp)
        rw [decide_eq_true_eq] at hmle
        exact absurd hmle (not_le.mpr (hl1 m1 hm1))
      rw [h1none]
      rw [Option.none_or]
      have hpredm2 : (fun mm => (l1 ++ m :: l2).all
          (fun m2 => decide (scoreMaster product m2 ≤ scoreMaster product mm))) m = true := hpredm
      exact List.find?_cons_of_pos l2 hpredm2
    simp only [h1, Option.isSome_some, Bool.true_and]
    rw [hfind]
    by_cases h34 : (3/4 : ℚ) ≤ (masters.foldl (findFoldStep product) (none, 0)).2 <;>
      simp [hscore, h34]

/-- Witness for C4 (amended): the sample one-master catalog, where both
sides return master 1. -/
theorem C4_find_master_amended_witness :
    find_matching_master_product halfLinkedProduct [sampleMaster] =
      claimFind brandSkip halfLinkedProduct [sampleMaster] :=
  C4_find_master_amended halfLinkedProduct [sampleMaster]


/-! ### SequenceMatcher correctness lemmas (for C9) -/

namespace SeqM

theorem slice_getElem? (s : List Char) (lo hi d : Nat) :
    (slice s lo hi)[d]? = if lo + d < hi then s[lo + d]? else none := by
  unfold slice
  rw [List.getElem?_drop, List.getElem?_take]

theorem commonRun_sound (b : List Char) :
    ∀ (x y : List Char) (d : Nat), d < commonRun b x y →
      ∃ c, x[d]? = some c ∧ y[d]? = some c ∧ popularB b c = false := by
  intro x
  induction x with
  | nil => intro y d h; cases y <;> simp [commonRun] at h
  | cons c cs ih =>
    intro y d h
    cases y with
    | nil => simp [commonRun] at h
    | cons e es =>
      rw [commonRun] at h
      split at h
      · rename_i hcond
        rw [Bool.and_eq_true, Bool.not_eq_true'] at hcond
        obtain ⟨hce, hpop⟩ := hcond
        rw [decide_eq_true_eq] at hce
        subst hce
        cases d with
        | zero => exact ⟨c, by simp, by simp, hpop⟩
        | succ d =>
          obtain ⟨c2, h1, h2, h3⟩ := ih es d (by omega)
          exact ⟨c2, by simpa using h1, by simpa using h2, h3⟩
      · omega

theorem commonRun_complete (b : List Char) :
    ∀ (x y : List Char) (L : Nat),
      (∀ d, d < L → ∃ c, x[d]? = some c ∧ y[d]? = some c ∧ popularB b c = false) →
      L ≤ commonRun b x y := by
  intro x
  induction x with
  | nil =>
    intro y L h
    cases L with
    | zero => exact Nat.zero_le _
    | succ L =>
      obtain ⟨c, h1, _, _⟩ := h 0 (by omega)
      simp at h1
  | cons c cs ih =>
    intro y L h
    cases L with
    | zero => exact Nat.zero_le _
    | succ L =>
      cases y with
      | nil =>
        obtain ⟨c2, _, h2, _⟩ := h 0 (by omega)
        simp at h2
      | cons e es =>
        obtain ⟨c2, h1, h2, h3⟩ := h 0 (by omega)
        simp only [List.getElem?_cons_zero, Option.some.injEq] at h1 h2
        subst h1
        subst h2
        rw [commonRun, if_pos (by simp [h3])]
        have := ih es L (fun d hd => by
          obtain ⟨c3, g1, g2, g3⟩ := h (d + 1) (by omega)
          simp only [List.getElem?_cons_succ] at g1 g2
          exact ⟨c3, g1, g2, g3⟩)
        omega

theorem runLen_sound (a b : List Char) (ahi bhi i j d : Nat)
    (h : d < runLen a b ahi bhi i j) :
    i + d < ahi ∧ j + d < bhi ∧
      ∃ c, a[i + d]? = some c ∧ b[j + d]? = some c ∧ popularB b c = false := by
  obtain ⟨c, hx, hy, hp⟩ := commonRun_sound b _ _ d h
  rw [slice_getElem?] at hx hy
  split at hx
  · split at hy
    · exact ⟨by assumption, by assumption, c, hx, hy, hp⟩
    · cases hy
  · cases hx

theorem runLen_complete (a b : List Char) (ahi bhi i j L : Nat)
    (h : ∀ d, d < L → i + d < ahi ∧ j + d < bhi ∧
      ∃ c, a[i + d]? = some c ∧ b[j + d]? = some c ∧ popularB b c = false) :
    L ≤ runLen a b ahi bhi i j := by
  apply commonRun_complete
  intro d hd
  obtain ⟨h1, h2, c, hx, hy, hp⟩ := h d hd
  refine ⟨c, ?_, ?_, hp⟩
  · rw [slice_getElem?, if_pos h1]
    exact hx
  · rw [slice_getElem?, if_pos h2]
    exact hy

theorem mem_lexPairs (alo ahi blo bhi : Nat) (ij : Nat × Nat) :
    ij ∈ lexPairs alo ahi blo bhi ↔
      alo ≤ ij.1 ∧ ij.1 < ahi ∧ blo ≤ ij.2 ∧ ij.2 < bhi := by
  obtain ⟨i, j⟩ := ij
  simp only [lexPairs, List.mem_flatten, List.mem_map]
  constructor
  · rintro ⟨L, ⟨i0, hi0, rfl⟩, hmem⟩
    simp only [List.mem_map] at hmem
    obtain ⟨j0, hj0, hj0eq⟩ := hmem
    rw [Prod.mk.injEq] at hj0eq
    obtain ⟨rfl, rfl⟩ := hj0eq
    rw [List.mem_range'_1] at hi0 hj0
    exact ⟨by omega, by omega, by omega, by omega⟩
  · rintro ⟨h1, h2, h3, h4⟩
    refine ⟨(List.range' blo (bhi - blo)).map (fun j => (i, j)), ⟨i, ?_, rfl⟩, ?_⟩
    · rw [List.mem_range'_1]
      omega
    · simp only [List.mem_map]
      exact ⟨j, by rw [List.mem_range'_1]; omega, rfl⟩

theorem lexPairs_pairwise (alo ahi blo bhi : Nat) :
    (lexPairs alo ahi blo bhi).Pairwise lexLt := by
  rw [lexPairs, List.pairwise_flatten]
  refine ⟨?_, ?_⟩
  · intro l hl
    simp only [List.mem_map] at hl
    obtain ⟨i, hi, rfl⟩ := hl
    rw [List.pairwise_map]
    apply List.Pairwise.imp ?_ (List.pairwise_lt_range' blo (bhi - blo))
    intro x y hxy
    exact Or.inr ⟨rfl, hxy⟩
  · rw [List.pairwise_map]
    apply List.Pairwise.imp ?_ (List.pairwise_lt_range' alo (ahi - alo))
    intro i1 i2 h12 x hx y hy
    simp only [List.mem_map] at hx hy
    obtain ⟨j1, _, rfl⟩ := hx
    obtain ⟨j2, _, rfl⟩ := hy
    exact Or.inl h12

theorem mem_prefix_of_lexLt {ps1 ps2 : List (Nat × Nat)} {x y : Nat × Nat}
    (hpw : (ps1 ++ x :: ps2).Pairwise lexLt) (hy : y ∈ ps1 ++ x :: ps2)
    (hlt : lexLt y x) : y ∈ ps1 := by
  rcases List.mem_append.mp hy with h | h
  · exact h
  · exfalso
    rcases List.mem_cons.mp h with h | h
    · subst h
      rcases hlt with h | ⟨h1, h2⟩ <;> omega
    · obtain ⟨_, hpw2, _⟩ := List.pairwise_append.mp hpw
      have hxy : lexLt x y := (List.pairwise_cons.mp hpw2).1 y h
      rcases hlt with hl | ⟨hl1, hl2⟩ <;> rcases hxy with hr | ⟨hr1, hr2⟩ <;> omega

/-- `mainGo` computes the first pair (in scan order) attaining the
maximal run length, unless no run beats the incoming best. -/
theorem mainGo_spec (a b : List Char) (ahi bhi : Nat) :
    ∀ (ps : List (Nat × Nat)) (best : Nat × Nat × Nat),
      (∀ ij ∈ ps, runLen a b ahi bhi ij.1 ij.2 ≤ (mainGo a b ahi bhi ps best).2.2) ∧
      best.2.2 ≤ (mainGo a b ahi bhi ps best).2.2 ∧
      (mainGo a b ahi bhi ps best = best ∨
        (∃ ps1 ps2,
          ps = ps1 ++ ((mainGo a b ahi bhi ps best).1, (mainGo a b ahi bhi ps best).2.1) :: ps2 ∧
          (mainGo a b ahi bhi ps best).2.2 =
            runLen a b ahi bhi (mainGo a b ahi bhi ps best).1 (mainGo a b ahi bhi ps best).2.1 ∧
          best.2.2 < (mainGo a b ahi bhi ps best).2.2 ∧
          ∀ ij ∈ ps1, runLen a b ahi bhi ij.1 ij.2 < (mainGo a b ahi bhi ps best).2.2)) := by
  intro ps
  induction ps with
  | nil =>
    intro best
    refine ⟨by simp, by simp [mainGo], Or.inl rfl⟩
  | cons ij0 rest ih =>
    intro best
    by_cases hup : best.2.2 < runLen a b ahi bhi ij0.1 ij0.2
    · have hgo : mainGo a b ahi bhi (ij0 :: rest) best =
          mainGo a b ahi bhi rest (ij0.1, ij0.2, runLen a b ahi bhi ij0.1 ij0.2) := by
        rw [mainGo, if_pos hup]
      rw [hgo]
      obtain ⟨ihAll, ihLe, ihCase⟩ := ih (ij0.1, ij0.2, runLen a b ahi bhi ij0.1 ij0.2)
      set r := mainGo a b ahi bhi rest (ij0.1, ij0.2, runLen a b ahi bhi ij0.1 ij0.2) with hr
      refine ⟨?_, ?_, ?_⟩
      · intro ij hij
        rcases List.mem_cons.mp hij with h | h
        · subst h
          exact ihLe
        · exact ihAll ij h
      · exact le_of_lt (lt_of_lt_of_le hup ihLe)
      · rcases ihCase with hres | ⟨ps1, ps2, hsplit, hrun, hlt2, hstrict⟩
        · right
          refine ⟨[], rest, ?_, ?_, ?_, by simp⟩
          · rw [hres]
            simp
          · rw [hres]
          · rw [hres]
            exact hup
        · right
          refine ⟨ij0 :: ps1, ps2, ?_, hrun, lt_trans hup hlt2, ?_⟩
          · rw [hsplit, List.cons_append]
          · intro ij hij
            rcases List.mem_cons.mp hij with h | h
            · subst h
              exact hlt2
            · exact hstrict ij h
    · have hgo : mainGo a b ahi bhi (ij0 :: rest) best = mainGo a b ahi bhi rest best := by
        rw [mainGo, if_neg hup]
      rw [hgo]
      obtain ⟨ihAll, ihLe, ihCase⟩ := ih best
      set r := mainGo a b ahi bhi rest best with hr
      refine ⟨?_, ihLe, ?_⟩
      · intro ij hij
        rcases List.mem_cons.mp hij with h | h
        · subst h
          exact le_trans (not_lt.mp hup) ihLe
        · exact ihAll ij h
      · rcases ihCase with hres | ⟨ps1, ps2, hsplit, hrun, hlt2, hstrict⟩
        · exact Or.inl hres
        · right
          refine ⟨ij0 :: ps1, ps2, ?_, hrun, hlt2, ?_⟩
          · rw [hsplit, List.cons_append]
          · intro ij hij
            rcases List.mem_cons.mp hij with h | h
            · subst h
              exact lt_of_le_of_lt (not_lt.mp hup) hlt2
            · exact hstrict ij h

theorem mainBest_cases (a b : List Char) (alo ahi blo bhi : Nat) :
    (∀ i j, alo ≤ i → i < ahi → blo ≤ j → j < bhi →
      runLen a b ahi bhi i j ≤ (mainBest a b alo ahi blo bhi).2.2) ∧
    (mainBest a b alo ahi blo bhi = (alo, blo, 0) ∨
      (alo ≤ (mainBest a b alo ahi blo bhi).1 ∧ (mainBest a b alo ahi blo bhi).1 < ahi ∧
       blo ≤ (mainBest a b alo ahi blo bhi).2.1 ∧ (mainBest a b alo ahi blo bhi).2.1 < bhi ∧
       (mainBest a b alo ahi blo bhi).2.2 =
         runLen a b ahi bhi (mainBest a b alo ahi blo bhi).1 (mainBest a b alo ahi blo bhi).2.1 ∧
       0 < (mainBest a b alo ahi blo bhi).2.2 ∧
       ∀ i j, alo ≤ i → i < ahi → blo ≤ j → j < bhi →
         lexLt (i, j) ((mainBest a b alo ahi blo bhi).1, (mainBest a b alo ahi blo bhi).2.1) →
         runLen a b ahi bhi i j < (mainBest a b alo ahi blo bhi).2.2)) := by
  obtain ⟨hAll, hLe, hCase⟩ :=
    mainGo_spec a b ahi bhi (lexPairs alo ahi blo bhi) (alo, blo, 0)
  have hbm : mainBest a b alo ahi blo bhi =
      mainGo a b ahi bhi (lexPairs alo ahi blo bhi) (alo, blo, 0) := rfl
  rw [hbm]
  set r := mainGo a b ahi bhi (lexPairs alo ahi blo bhi) (alo, blo, 0) with hrdef
  constructor
  · intro i j h1 h2 h3 h4
    exact hAll (i, j) ((mem_lexPairs alo ahi blo bhi (i, j)).mpr ⟨h1, h2, h3, h4⟩)
  · rcases hCase with hres | ⟨ps1, ps2, hsplit, hrun, hlt0, hstrict⟩
    · exact Or.inl hres
    · right
      have hmem : (r.1, r.2.1) ∈ lexPairs alo ahi blo bhi := by
        rw [hsplit]
        simp
      obtain ⟨g1, g2, g3, g4⟩ := (mem_lexPairs alo ahi blo bhi (r.1, r.2.1)).mp hmem
      refine ⟨g1, g2, g3, g4, hrun, by simpa using hlt0, ?_⟩
      intro i j h1 h2 h3 h4 hlex
      have hij : (i, j) ∈ lexPairs alo ahi blo bhi :=
        (mem_lexPairs alo ahi blo bhi (i, j)).mpr ⟨h1, h2, h3, h4⟩
      have hpw := lexPairs_pairwise alo ahi blo bhi
      rw [hsplit] at hpw hij
      exact hstrict (i, j) (mem_prefix_of_lexLt hpw hij hlex)

theorem extBack_spec (a b : List Char) (alo blo : Nat) :
    ∀ (f bi bj : Nat),
      extBack a b alo blo f bi bj ≤ bi - alo ∧ extBack a b alo blo f bi bj ≤ bj - blo ∧
      ∀ d, d < extBack a b alo blo f bi bj →
        ∃ c, a[bi - extBack a b alo blo f bi bj + d]? = some c ∧
          b[bj - extBack a b alo blo f bi bj + d]? = some c := by
  intro f
  induction f with
  | zero =>
    intro bi bj
    simp [extBack]
  | succ f ih =>
    intro bi bj
    rw [extBack]
    split
    · rename_i hcond
      simp only [Bool.and_eq_true, decide_eq_true_eq, Option.isSome_iff_exists,
        beq_iff_eq, List.get?_eq_getElem?] at hcond
      obtain ⟨⟨hbi, hbj⟩, ⟨c0, hc0⟩, heq⟩ := hcond
      obtain ⟨ih1, ih2, ih3⟩ := ih (bi - 1) (bj - 1)
      set e := extBack a b alo blo f (bi - 1) (bj - 1) with he
      refine ⟨by omega, by omega, ?_⟩
      intro d hd
      by_cases hde : d < e
      · obtain ⟨c, hca, hcb⟩ := ih3 d hde
        refine ⟨c, ?_, ?_⟩
        · rw [show bi - (1 + e) + d = bi - 1 - e + d by omega]
          exact hca
        · rw [show bj - (1 + e) + d = bj - 1 - e + d by omega]
          exact hcb
      · have hdeq : d = e := by omega
        refine ⟨c0, ?_, ?_⟩
        · rw [show bi - (1 + e) + d = bi - 1 by omega]
          exact hc0
        · rw [show bj - (1 + e) + d = bj - 1 by omega]
          rw [← heq]
          exact hc0
    · simp

theorem extFwd_spec (a b : List Char) (ahi bhi : Nat) :
    ∀ (f i j : Nat), ∀ d, d < extFwd a b ahi bhi f i j →
      i + d < ahi ∧ j + d < bhi ∧ ∃ c, a[i + d]? = some c ∧ b[j + d]? = some c := by
  intro f
  induction f with
  | zero =>
    intro i j d hd
    simp [extFwd] at hd
  | succ f ih =>
    intro i j d hd
    rw [extFwd] at hd
    split at hd
    · rename_i hcond
      simp only [Bool.and_eq_true, decide_eq_true_eq, Option.isSome_iff_exists,
        beq_iff_eq, List.get?_eq_getElem?] at hcond
      obtain ⟨⟨hia, hjb⟩, ⟨c0, hc0⟩, heq⟩ := hcond
      cases d with
      | zero =>
        refine ⟨by omega, by omega, c0, ?_, ?_⟩
        · simpa using hc0
        · simp only [Nat.add_zero]
          rw [← heq]
          exact hc0
      | succ d =>
        obtain ⟨k1, k2, c, hca, hcb⟩ := ih (i + 1) (j + 1) d (by omega)
        refine ⟨by omega, by omega, c, ?_, ?_⟩
        · rw [show i + (d + 1) = i + 1 + d by omega]
          exact hca
        · rw [show j + (d + 1) = j + 1 + d by omega]
          exact hcb
    · omega

/-- Soundness of `find_longest_match`: the returned block lies inside the
region and matches character for character. -/
theorem flm_sound (a b : List Char) (alo ahi blo bhi : Nat)
    (halo : alo ≤ ahi) (hblo : blo ≤ bhi) :
    alo ≤ (flm a b alo ahi blo bhi).1 ∧ blo ≤ (flm a b alo ahi blo bhi).2.1 ∧
    (flm a b alo ahi blo bhi).1 + (flm a b alo ahi blo bhi).2.2 ≤ ahi ∧
    (flm a b alo ahi blo bhi).2.1 + (flm a b alo ahi blo bhi).2.2 ≤ bhi ∧
    ∀ d, d < (flm a b alo ahi blo bhi).2.2 →
      ∃ c, a[(flm a b alo ahi blo bhi).1 + d]? = some c ∧
        b[(flm a b alo ahi blo bhi).2.1 + d]? = some c := by
  obtain ⟨hAll, hCase⟩ := mainBest_cases a b alo ahi blo bhi
  set m := mainBest a b alo ahi blo bhi with hm
  have hmfacts : alo ≤ m.1 ∧ blo ≤ m.2.1 ∧ m.1 + m.2.2 ≤ ahi ∧ m.2.1 + m.2.2 ≤ bhi ∧
      ∀ d, d < m.2.2 → ∃ c, a[m.1 + d]? = some c ∧ b[m.2.1 + d]? = some c := by
    rcases hCase with hres | ⟨g1, g2, g3, g4, grun, gpos, _⟩
    · rw [hres]
      exact ⟨le_refl _, le_refl _, by simpa using halo, by simpa using hblo, by simp⟩
    · refine ⟨g1, g3, ?_, ?_, ?_⟩
      · rcases Nat.eq_zero_or_pos m.2.2 with h0 | hp
        · omega
        · have := runLen_sound a b ahi bhi m.1 m.2.1 (m.2.2 - 1) (by omega)
          omega
      · rcases Nat.eq_zero_or_pos m.2.2 with h0 | hp
        · omega
        · have := runLen_sound a b ahi bhi m.1 m.2.1 (m.2.2 - 1) (by omega)
          omega
      · intro d hd
        rw [grun] at hd
        obtain ⟨_, _, c, hc1, hc2, _⟩ := runLen_sound a b ahi bhi m.1 m.2.1 d hd
        exact ⟨c, hc1, hc2⟩
  obtain ⟨hm1, hm2, hm3, hm4, hmcov⟩ := hmfacts
  have hflm : flm a b alo ahi blo bhi = flmExt a b alo ahi blo bhi m := rfl
  rw [hflm]
  unfold flmExt
  obtain ⟨hb1, hb2, hbcov⟩ := extBack_spec a b alo blo m.1 m.1 m.2.1
  set e1 := extBack a b alo blo m.1 m.1 m.2.1 with he1
  set e2 := extFwd a b ahi bhi ahi (m.1 + m.2.2) (m.2.1 + m.2.2) with he2
  have hf2 : ∀ d, d < e2 → m.1 + m.2.2 + d < ahi ∧ m.2.1 + m.2.2 + d < bhi ∧
      ∃ c, a[m.1 + m.2.2 + d]? = some c ∧ b[m.2.1 + m.2.2 + d]? = some c :=
    fun d hd => extFwd_spec a b ahi bhi ahi (m.1 + m.2.2) (m.2.1 + m.2.2) d hd
  have hfend : m.1 + m.2.2 + e2 ≤ ahi ∧ m.2.1 + m.2.2 + e2 ≤ bhi := by
    rcases Nat.eq_zero_or_pos e2 with h0 | hp
    · omega
    · have := hf2 (e2 - 1) (by omega)
      omega
  refine ⟨by simp; omega, by simp; omega, by simp; omega, by simp; omega, ?_⟩
  intro d hd
  simp only at hd ⊢
  by_cases hd1 : d < e1
  · obtain ⟨c, hc1, hc2⟩ := hbcov d hd1
    exact ⟨c, hc1, hc2⟩
  · by_cases hd2 : d < e1 + m.2.2
    · obtain ⟨c, hc1, hc2⟩ := hmcov (d - e1) (by omega)
      refine ⟨c, ?_, ?_⟩
      · rw [show m.1 - e1 + d = m.1 + (d - e1) by omega]
        exact hc1
      · rw [show m.2.1 - e1 + d = m.2.1 + (d - e1) by omega]
        exact hc2
    · obtain ⟨_, _, c, hc1, hc2⟩ := hf2 (d - e1 - m.2.2) (by omega)
      refine ⟨c, ?_, ?_⟩
      · rw [show m.1 - e1 + d = m.1 + m.2.2 + (d - e1 - m.2.2) by omega]
        exact hc1
      · rw [show m.2.1 - e1 + d = m.2.1 + m.2.2 + (d - e1 - m.2.2) by omega]
        exact hc2

/-- The total matched size never exceeds either region's length. -/
theorem tm_le (a b : List Char) :
    ∀ (f alo ahi blo bhi : Nat), alo ≤ ahi → blo ≤ bhi →
      tm a b f alo ahi blo bhi ≤ ahi - alo ∧ tm a b f alo ahi blo bhi ≤ bhi - blo := by
  intro f
  induction f with
  | zero =>
    intro alo ahi blo bhi _ _
    simp [tm]
  | succ f ih =>
    intro alo ahi blo bhi halo hblo
    rw [tm]
    split
    · simp
    · obtain ⟨hs1, hs2, hs3, hs4, _⟩ := flm_sound a b alo ahi blo bhi halo hblo
      set r := flm a b alo ahi blo bhi with hr
      have hL : (if alo < r.1 && blo < r.2.1 then tm a b f alo r.1 blo r.2.1 else 0)
            ≤ r.1 - alo ∧
          (if alo < r.1 && blo < r.2.1 then tm a b f alo r.1 blo r.2.1 else 0)
            ≤ r.2.1 - blo := by
        split
        · exact ih alo r.1 blo r.2.1 (by omega) (by omega)
        · simp
      have hR : (if r.1 + r.2.2 < ahi && r.2.1 + r.2.2 < bhi then
              tm a b f (r.1 + r.2.2) ahi (r.2.1 + r.2.2) bhi else 0)
            ≤ ahi - (r.1 + r.2.2) ∧
          (if r.1 + r.2.2 < ahi && r.2.1 + r.2.2 < bhi then
              tm a b f (r.1 + r.2.2) ahi (r.2.1 + r.2.2) bhi else 0)
            ≤ bhi - (r.2.1 + r.2.2) := by
        split
        · exact ih (r.1 + r.2.2) ahi (r.2.1 + r.2.2) bhi (by omega) (by omega)
        · simp
      omega

/-- When the matched size saturates both region lengths, the two regions
agree character for character. -/
theorem tm_full (a b : List Char) :
    ∀ (f alo ahi blo bhi : Nat), alo ≤ ahi → blo ≤ bhi →
      tm a b f alo ahi blo bhi = ahi - alo → tm a b f alo ahi blo bhi = bhi - blo →
      ∀ d, d < ahi - alo → ∃ c, a[alo + d]? = some c ∧ b[blo + d]? = some c := by
  intro f
  induction f with
  | zero =>
    intro alo ahi blo bhi _ _ h1 _ d hd
    simp [tm] at h1
    omega
  | succ f ih =>
    intro alo ahi blo bhi halo hblo h1 h2 d hd
    rw [tm] at h1 h2
    split at h1
    · omega
    · split at h2
      · omega
      · obtain ⟨hs1, hs2, hs3, hs4, hcov⟩ := flm_sound a b alo ahi blo bhi halo hblo
        set r := flm a b alo ahi blo bhi with hr
        obtain ⟨hLa, hLb⟩ : (if alo < r.1 && blo < r.2.1 then
              tm a b f alo r.1 blo r.2.1 else 0) ≤ r.1 - alo ∧
            (if alo < r.1 && blo < r.2.1 then
              tm a b f alo r.1 blo r.2.1 else 0) ≤ r.2.1 - blo := by
          split
          · exact tm_le a b f alo r.1 blo r.2.1 (by omega) (by omega)
          · simp
        obtain ⟨hRa, hRb⟩ : (if r.1 + r.2.2 < ahi && r.2.1 + r.2.2 < bhi then
              tm a b f (r.1 + r.2.2) ahi (r.2.1 + r.2.2) bhi else 0)
              ≤ ahi - (r.1 + r.2.2) ∧
            (if r.1 + r.2.2 < ahi && r.2.1 + r.2.2 < bhi then
              tm a b f (r.1 + r.2.2) ahi (r.2.1 + r.2.2) bhi else 0)
              ≤ bhi - (r.2.1 + r.2.2) := by
          split
          · exact tm_le a b f (r.1 + r.2.2) ahi (r.2.1 + r.2.2) bhi (by omega) (by omega)
          · simp
        have hdL : r.1 - alo = r.2.1 - blo := by omega
        have covL : ∀ e, e < r.1 - alo →
            ∃ c, a[alo + e]? = some c ∧ b[blo + e]? = some c := by
          intro e he
          have hLfull : (if alo < r.1 && blo < r.2.1 then
              tm a b f alo r.1 blo r.2.1 else 0) = r.1 - alo := by omega
          rw [if_pos] at hLfull
          · exact ih alo r.1 blo r.2.1 (by omega) (by omega) hLfull (by omega) e he
          · simp only [Bool.and_eq_true, decide_eq_true_eq]
            omega
        have covR : ∀ e, e < ahi - (r.1 + r.2.2) →
            ∃ c, a[r.1 + r.2.2 + e]? = some c ∧ b[r.2.1 + r.2.2 + e]? = some c := by
          intro e he
          have hRfull : (if r.1 + r.2.2 < ahi && r.2.1 + r.2.2 < bhi then
              tm a b f (r.1 + r.2.2) ahi (r.2.1 + r.2.2) bhi else 0)
              = ahi - (r.1 + r.2.2) := by omega
          rw [if_pos] at hRfull
          · exact ih (r.1 + r.2.2) ahi (r.2.1 + r.2.2) bhi (by omega) (by omega)
              hRfull (by omega) e he
          · simp only [Bool.and_eq_true, decide_eq_true_eq]
            omega
        by_cases hd1 : d < r.1 - alo
        · exact covL d hd1
        · by_cases hd2 : d < r.1 - alo + r.2.2
          · obtain ⟨c, hc1, hc2⟩ := hcov (d - (r.1 - alo)) (by omega)
            refine ⟨c, ?_, ?_⟩
            · rw [show alo + d = r.1 + (d - (r.1 - alo)) by omega]
              exact hc1
            · rw [show blo + d = r.2.1 + (d - (r.1 - alo)) by omega]
              exact hc2
          · obtain ⟨c, hc1, hc2⟩ := covR (d - (r.1 - alo) - r.2.2) (by omega)
            refine ⟨c, ?_, ?_⟩
            · rw [show alo + d = r.1 + r.2.2 + (d - (r.1 - alo) - r.2.2) by omega]
              exact hc1
            · rw [show blo + d = r.2.1 + r.2.2 + (d - (r.1 - alo) - r.2.2) by omega]
              exact hc2

/-- One successful step of the forward extension loop. -/
theorem extFwd_step_pos (a b : List Char) (ahi bhi f i j : Nat)
    (hf : 0 < f) (hi : i < ahi) (hj : j < bhi) (hia : i < a.length)
    (heq : (a.get? i == b.get? j) = true) :
    0 < extFwd a b ahi bhi f i j := by
  cases f with
  | zero => omega
  | succ f =>
    rw [extFwd, if_pos]
    · omega
    · simp only [Bool.and_eq_true, decide_eq_true_eq]
      refine ⟨⟨hi, hj⟩, ?_, heq⟩
      rw [List.get?_eq_getElem?, List.getElem?_eq_getElem hia]
      rfl

/-- On identical inputs the main loop's best block is diagonal: an
off-diagonal maximum would be beaten (in scan order) by its own diagonal
translate, which has the same run length. -/
theorem mainBest_diag (a : List Char) (alo ahi : Nat) :
    (mainBest a a alo ahi alo ahi).2.1 = (mainBest a a alo ahi alo ahi).1 := by
  obtain ⟨hAll, hCase⟩ := mainBest_cases a a alo ahi alo ahi
  set m := mainBest a a alo ahi alo ahi with hm
  rcases hCase with hres | ⟨g1, g2, g3, g4, grun, gpos, gstrict⟩
  · rw [hres]
  · rcases Nat.lt_trichotomy m.2.1 m.1 with hlt | hEq | hgt
    · exfalso
      have hge : m.2.2 ≤ runLen a a ahi ahi m.2.1 m.2.1 := by
        apply runLen_complete
        intro d hd
        have hd2 : d < runLen a a ahi ahi m.1 m.2.1 := by omega
        obtain ⟨h1, h2, c, hc1, hc2, hp⟩ := runLen_sound a a ahi ahi m.1 m.2.1 d hd2
        exact ⟨h2, h2, c, hc2, hc2, hp⟩
      have := gstrict m.2.1 m.2.1 g3 g4 g3 g4 (Or.inl hlt)
      omega
    · exact hEq
    · exfalso
      have hge : m.2.2 ≤ runLen a a ahi ahi m.1 m.1 := by
        apply runLen_complete
        intro d hd
        have hd2 : d < runLen a a ahi ahi m.1 m.2.1 := by omega
        obtain ⟨h1, h2, c, hc1, hc2, hp⟩ := runLen_sound a a ahi ahi m.1 m.2.1 d hd2
        exact ⟨h1, h1, c, hc1, hc1, hp⟩
      have := gstrict m.1 m.1 g1 g2 g1 g2 (Or.inr ⟨rfl, hgt⟩)
      omega

/-- On identical inputs `find_longest_match` returns a diagonal block,
nonempty whenever the region is. -/
theorem flm_identical (a : List Char) (alo ahi : Nat) (halo : alo ≤ ahi)
    (hlen : ahi ≤ a.length) :
    (flm a a alo ahi alo ahi).2.1 = (flm a a alo ahi alo ahi).1 ∧
    (alo < ahi → 0 < (flm a a alo ahi alo ahi).2.2) := by
  have hdiag := mainBest_diag a alo ahi
  obtain ⟨hAll, hCase⟩ := mainBest_cases a a alo ahi alo ahi
  set m := mainBest a a alo ahi alo ahi with hm
  have hflm : flm a a alo ahi alo ahi = flmExt a a alo ahi alo ahi m := rfl
  rw [hflm]
  unfold flmExt
  refine ⟨by simp only; omega, ?_⟩
  intro hlt
  simp only
  rcases hCase with hres | ⟨g1, g2, g3, g4, grun, gpos, _⟩
  · have h1 : m.1 = alo := by rw [hres]
    have h21 : m.2.1 = alo := by rw [hres]
    have h22 : m.2.2 = 0 := by rw [hres]
    have hpos : 0 < extFwd a a ahi ahi ahi (m.1 + m.2.2) (m.2.1 + m.2.2) := by
      rw [h1, h21, h22]
      apply extFwd_step_pos
      · omega
      · omega
      · omega
      · omega
      · exact beq_self_eq_true _
    omega
  · omega

/-- On identical inputs the matching blocks cover everything: the total
matched size equals the region length. -/
theorem tm_diag (a : List Char) :
    ∀ (f alo ahi : Nat), alo ≤ ahi → ahi ≤ a.length → ahi - alo ≤ f →
      tm a a f alo ahi alo ahi = ahi - alo := by
  intro f
  induction f with
  | zero =>
    intro alo ahi h1 _ h3
    simp [tm]
    omega
  | succ f ih =>
    intro alo ahi halo hlen hfuel
    by_cases hne : alo < ahi
    case neg =>
      rw [tm]
      obtain ⟨hs1, hs2, hs3, hs4, _⟩ := flm_sound a a alo ahi alo ahi halo halo
      split
      · omega
      · rename_i hk
        exfalso
        omega
    case pos =>
      obtain ⟨hdiag, hkpos⟩ := flm_identical a alo ahi halo hlen
      obtain ⟨hs1, hs2, hs3, hs4, _⟩ := flm_sound a a alo ahi alo ahi halo halo
      rw [tm]
      set r := flm a a alo ahi alo ahi with hr
      have hk := hkpos hne
      rw [if_neg (by omega), hdiag]
      have hL : (if alo < r.1 && alo < r.1 then tm a a f alo r.1 alo r.1 else 0)
          = r.1 - alo := by
        by_cases hgl : alo < r.1
        · rw [if_pos (by simp [hgl])]
          exact ih alo r.1 (by omega) (by omega) (by omega)
        · rw [if_neg (by simp [hgl])]
          omega
      have hR : (if r.1 + r.2.2 < ahi && r.1 + r.2.2 < ahi then
            tm a a f (r.1 + r.2.2) ahi (r.1 + r.2.2) ahi else 0)
          = ahi - (r.1 + r.2.2) := by
        by_cases hgr : r.1 + r.2.2 < ahi
        · rw [if_pos (by simp [hgr])]
          exact ih (r.1 + r.2.2) ahi (by omega) (by omega) (by omega)
        · rw [if_neg (by simp [hgr])]
          omega
      omega

theorem totalMatches_le (a b : List Char) :
    totalMatches a b ≤ a.length ∧ totalMatches a b ≤ b.length := by
  have := tm_le a b (a.length + b.length + 1) 0 a.length 0 b.length
    (Nat.zero_le _) (Nat.zero_le _)
  simpa [totalMatches] using this

theorem totalMatches_full (a b : List Char) (h1 : totalMatches a b = a.length)
    (h2 : totalMatches a b = b.length) : a = b := by
  apply List.ext_getElem?
  intro n
  by_cases hn : n < a.length
  · obtain ⟨c, hc1, hc2⟩ := tm_full a b (a.length + b.length + 1) 0 a.length 0 b.length
      (Nat.zero_le _) (Nat.zero_le _) (by simpa [totalMatches] using h1)
      (by simpa [totalMatches] using h2) n (by omega)
    simp only [Nat.zero_add] at hc1 hc2
    rw [hc1, hc2]
  · rw [List.getElem?_eq_none (by omega), List.getElem?_eq_none (by omega)]

theorem totalMatches_self (a : List Char) : totalMatches a a = a.length := by
  have := tm_diag a (a.length + a.length + 1) 0 a.length (Nat.zero_le _) (le_refl _) (by omega)
  simpa [totalMatches] using this

/-- `ratio()` equals exactly 1 precisely on equal inputs (this holds even
with autojunk: the extension loops ignore popularity). -/
theorem ratioQ_eq_one_iff (a b : List Char) : ratioQ a b = 1 ↔ a = b := by
  unfold ratioQ
  split
  · rename_i h0
    have ha : a = [] := List.length_eq_zero.mp (by omega)
    have hb : b = [] := List.length_eq_zero.mp (by omega)
    subst ha
    subst hb
    simp
  · rename_i h0
    have hne : ((a.length : ℚ) + (b.length : ℚ)) ≠ 0 := by
      exact_mod_cast (show a.length + b.length ≠ 0 from h0)
    constructor
    · intro h
      rw [div_eq_iff hne, one_mul] at h
      have hN : 2 * totalMatches a b = a.length + b.length := by exact_mod_cast h
      obtain ⟨hla, hlb⟩ := totalMatches_le a b
      exact totalMatches_full a b (by omega) (by omega)
    · intro h
      subst h
      rw [totalMatches_self, div_eq_iff hne, one_mul]
      ring

end SeqM

/-- C9 counterexample: `calculate_similarity` is not symmetric.  difflib's
ratio depends on the argument order: with names normalizing to "cabc" and
"bcac" the two orders give 3/4 and 1/2. -/
theorem C9_symmetry_counterexample :
    calculate_similarity "cabc" "bcac" = 3 / 4 ∧
    calculate_similarity "bcac" "cabc" = 1 / 2 ∧
    calculate_similarity "cabc" "bcac" ≠ calculate_similarity "bcac" "cabc" := by
  refine ⟨by decide, by decide, by decide⟩

/-- C9: the surviving half of the claim, proved for all strings —
`calculate_similarity` equals exactly 1 if and only if the two names
normalize to the same string (the symmetry half fails, see the
counterexample). -/
theorem C9_similarity_one_iff (a b : String) :
    calculate_similarity a b = 1 ↔ normalize_text a = normalize_text b := by
  unfold calculate_similarity
  rw [SeqM.ratioQ_eq_one_iff]
  exact ⟨fun h => String.ext h, fun h => by rw [h]⟩

end CyPrice
